import Mathlib

/-!
# Verification of the Othello engine (`othello_game.py`)

A shallow embedding of the board/rules engine (`OthelloBoard`) and of the
move-selection AI (`SuperOthelloAI`) of the repository, together with proofs
of the specification claims about them.

Conventions of the embedding:
* cells hold one of `EMPTY`, `BLACK`, `WHITE`; we model a cell as
  `Option Player` (`none` is `EMPTY`) and a side as the two-valued `Player`;
* the mutable 8×8 numpy array becomes the function type
  `Fin 8 → Fin 8 → Cell`, and in-place mutation becomes explicit state
  passing (`make_move` returns the pair of the boolean result and the board
  after the call);
* the `while` loops that walk a ray of the board are written with an explicit
  step budget of 8: every direction vector is nonzero, so a walk that starts
  inside the board leaves the 8×8 grid after at most 8 steps, and the budget
  can never be exhausted before the loop's own exit condition fires;
* Python's exact arithmetic on ints is `Int`/`Nat`; the float weights of the
  evaluator are modelled as exact rationals.
-/

set_option autoImplicit false

namespace Othello

/-- The two playable sides (`BLACK = 1`, `WHITE = 2` in the source). -/
inductive Player where
  | black
  | white
  deriving DecidableEq, Repr

/-- `opponent = BLACK if player == WHITE else WHITE`. -/
def Player.opp : Player → Player
  | .black => .white
  | .white => .black

@[simp] theorem Player.opp_black : Player.black.opp = Player.white := rfl
@[simp] theorem Player.opp_white : Player.white.opp = Player.black := rfl

@[simp] theorem Player.opp_opp (p : Player) : p.opp.opp = p := by cases p <;> rfl

theorem Player.opp_ne (p : Player) : p.opp ≠ p := by cases p <;> simp [Player.opp]

/-- A cell of the board: `none` is `EMPTY`, `some p` is a disc of side `p`. -/
abbrev Cell := Option Player

/-- The 8×8 grid (`self.board`): a row-major list of rows.  Every board the
operations produce has exactly 8 rows of 8 cells; reads and writes go
through `bget`/`bset`, which behave on any value of the type like the 8×8
numpy array of the source. -/
abbrev Board := List (List Cell)

/-- Bounds test `0 <= r < BOARD_SIZE and 0 <= c < BOARD_SIZE`. -/
def inB (r c : Int) : Prop := 0 ≤ r ∧ r < 8 ∧ 0 ≤ c ∧ c < 8

instance (r c : Int) : Decidable (inB r c) := by unfold inB; infer_instance

/-- Read a cell at integer coordinates; all reads in the source are guarded
by the bounds test, so the out-of-bounds default is never consulted. -/
def bget (b : Board) (r c : Int) : Cell :=
  if inB r c then (b.getD r.toNat []).getD c.toNat none else none

/-- Write a cell at integer coordinates (`self.board[r][c] = v`): the 8×8
grid with the one cell replaced (rebuilt row-major, which also keeps every
produced board in the 8×8 shape of the numpy array). -/
def bset (b : Board) (r c : Int) (v : Cell) : Board :=
  (List.range 8).map fun (i : Nat) => (List.range 8).map fun (j : Nat) =>
    if (i : Int) = r ∧ (j : Int) = c then v else bget b (i : Int) (j : Int)

/-- The 8 direction vectors (`DIRECTIONS`). -/
def DIRECTIONS : List (Int × Int) :=
  [(-1, -1), (-1, 0), (-1, 1), (0, -1), (0, 1), (1, -1), (1, 0), (1, 1)]

/-- `np.zeros((8, 8))`: the all-empty grid. -/
def emptyBoard : Board := List.replicate 8 (List.replicate 8 (none : Cell))

/-- The initial position (`setup_initial_position`): WHITE at (3,3) and
(4,4), BLACK at (3,4) and (4,3). -/
def initialBoard : Board :=
  bset (bset (bset (bset emptyBoard 3 3 (some .white)) 3 4 (some .black))
    4 3 (some .black)) 4 4 (some .white)

/-- Build a board from a row-major list of rows (test fixture helper). -/
def ofRows (rows : List (List Cell)) : Board := rows

/-- The `while` loop of `_can_flip_direction`, with its step budget.  The
loop walks from `(r, c)` in direction `(dr, dc)`: an `EMPTY` cell stops it
with `False`, an opponent disc records `found_opponent` and continues, an
own disc stops it with `found_opponent`; leaving the board stops it with
`False`.  A walk that starts inside the board is outside it after at most
8 steps, so budget 8 is never the reason the loop stops. -/
def canFlipLoop (b : Board) (player : Player) (dr dc : Int) :
    Nat → Int → Int → Bool → Bool
  | 0, _, _, _ => false
  | fuel + 1, r, c, foundOpp =>
    if inB r c then
      if bget b r c = none then false
      else if bget b r c = some player.opp then
        canFlipLoop b player dr dc fuel (r + dr) (c + dc) true
      else foundOpp
    else false

/-- `OthelloBoard._can_flip_direction`. -/
def can_flip_direction (b : Board) (row col dr dc : Int) (player : Player) : Bool :=
  canFlipLoop b player dr dc 8 (row + dr) (col + dc) false

/-- `OthelloBoard.is_valid_move`. -/
def is_valid_move (b : Board) (row col : Int) (player : Player) : Bool :=
  if inB row col then
    if bget b row col = none then
      DIRECTIONS.any fun d => can_flip_direction b row col d.1 d.2 player
    else false
  else false

/-- A candidate move (`Move` dataclass); the score field is filled in by the
search.  Scores live in `WithBot (WithTop ℚ)`: the source initialises its
running best with the floats `-inf` / `inf` and otherwise stores exact
evaluator outputs. -/
structure Move where
  row : Int
  col : Int
  score : WithBot (WithTop ℚ)
  deriving DecidableEq

/-- `OthelloBoard.get_valid_moves`: row-major scan. -/
def get_valid_moves (b : Board) (player : Player) : List Move :=
  (List.range 8).flatMap fun row =>
    (List.range 8).flatMap fun col =>
      if is_valid_move b (row : Int) (col : Int) player then
        [⟨(row : Int), (col : Int), 0⟩]
      else []

/-- The `while` loop of `_flip_direction`: an opponent disc is overwritten
with `player` and the walk continues, an own disc stops the walk, an `EMPTY`
cell is skipped (the loop body has no branch for it), leaving the board
stops the walk.  Budget 8 as in `canFlipLoop`. -/
def flipLoop (player : Player) (dr dc : Int) :
    Nat → Board → Int → Int → Board
  | 0, b, _, _ => b
  | fuel + 1, b, r, c =>
    if inB r c then
      if bget b r c = some player.opp then
        flipLoop player dr dc fuel (bset b r c (some player)) (r + dr) (c + dc)
      else if bget b r c = some player then b
      else flipLoop player dr dc fuel b (r + dr) (c + dc)
    else b

/-- `OthelloBoard._flip_direction`. -/
def flip_direction (b : Board) (row col dr dc : Int) (player : Player) : Board :=
  flipLoop player dr dc 8 b (row + dr) (col + dc)

/-- `OthelloBoard.make_move`: the boolean result paired with the board after
the call (the source mutates in place).  The per-direction flip test is made
on the evolving board, exactly as in the source. -/
def make_move (b : Board) (row col : Int) (player : Player) : Bool × Board :=
  if is_valid_move b row col player then
    let b1 := bset b row col (some player)
    (true, DIRECTIONS.foldl (fun acc d =>
      if can_flip_direction acc row col d.1 d.2 player then
        flip_direction acc row col d.1 d.2 player
      else acc) b1)
  else (false, b)

/-- `OthelloBoard.count_discs`. -/
def count_discs (b : Board) (player : Player) : Nat :=
  ((Finset.univ : Finset (Fin 8 × Fin 8)).filter fun rc =>
    bget b (rc.1 : Int) (rc.2 : Int) = some player).card

/-- `np.sum(board.board == EMPTY)`. -/
def emptyCount (b : Board) : Nat :=
  ((Finset.univ : Finset (Fin 8 × Fin 8)).filter fun rc =>
    bget b (rc.1 : Int) (rc.2 : Int) = none).card

/-- `OthelloBoard.is_game_over`. -/
def is_game_over (b : Board) : Bool :=
  (get_valid_moves b .black).isEmpty && (get_valid_moves b .white).isEmpty

/-- `OthelloBoard.get_winner`. -/
def get_winner (b : Board) : Option Player :=
  if is_game_over b then
    if count_discs b .black > count_discs b .white then some .black
    else if count_discs b .white > count_discs b .black then some .white
    else none
  else none

/-! ## Basic facts about cell access -/

theorem cell_cases (c : Cell) (p : Player) : c = none ∨ c = some p.opp ∨ c = some p := by
  rcases c with - | q
  · exact Or.inl rfl
  · cases q <;> cases p <;> simp [Player.opp]

theorem bget_some_inB {b : Board} {r c : Int} {q : Player}
    (h : bget b r c = some q) : inB r c := by
  by_cases hb : inB r c
  · exact hb
  · simp [bget, hb] at h

theorem bget_congr_idx (b : Board) {r c r' c' : Int} (h1 : r = r') (h2 : c = c') :
    bget b r c = bget b r' c' := by rw [h1, h2]

/-- Reading an 8×8 grid built cell-by-cell from a function. -/
theorem grid_getD (f : Nat → Nat → Cell) {i j : Nat} (hi : i < 8) (hj : j < 8) :
    ((((List.range 8).map fun a => (List.range 8).map fun b2 => f a b2).getD i []).getD j
      none) = f i j := by
  have hi' : i < ((List.range 8).map fun a =>
      (List.range 8).map fun b2 => f a b2).length := by
    simpa using hi
  rw [List.getD_eq_getElem _ _ hi', List.getElem_map]
  rw [List.getD_eq_getElem]
  rw [List.getElem_map, List.getElem_range, List.getElem_range]
  simpa using hj

theorem bget_bset (b : Board) (u v : Int) (w : Cell) (x y : Int) :
    bget (bset b u v w) x y =
      if x = u ∧ y = v ∧ inB x y then w else bget b x y := by
  by_cases hb : inB x y
  · obtain ⟨h1, h2, h3, h4⟩ := hb
    have hb' : inB x y := ⟨h1, h2, h3, h4⟩
    have ex : ((x.toNat : Int)) = x := Int.toNat_of_nonneg h1
    have ey : ((y.toNat : Int)) = y := Int.toNat_of_nonneg h3
    have hgrid : bget (bset b u v w) x y =
        if ((x.toNat : Int)) = u ∧ ((y.toNat : Int)) = v then w
        else bget b (x.toNat : Int) (y.toNat : Int) := by
      rw [bget, if_pos hb', bset, grid_getD _ (by omega) (by omega)]
    rw [hgrid]
    by_cases hxy : x = u ∧ y = v
    · rw [if_pos ⟨by rw [ex, hxy.1], by rw [ey, hxy.2]⟩, if_pos ⟨hxy.1, hxy.2, hb'⟩]
    · rw [if_neg (fun h => hxy ⟨by rw [← ex, h.1], by rw [← ey, h.2]⟩),
        if_neg (fun h => hxy ⟨h.1, h.2.1⟩), ex, ey]
  · rw [if_neg (fun h => hb h.2.2)]
    simp only [bget, if_neg hb]

/-! ## Characterisation of the ray walks

`canFlipLoop b p dr dc fuel r c f` examines the cells `(r + k*dr, c + k*dc)`
for `k = 0, 1, 2, …`.  It returns `true` exactly when a prefix of that ray
consists of opponent discs followed by an own disc, where the prefix must be
nonempty unless the `found_opponent` flag is already set. -/

theorem canFlipLoop_iff (b : Board) (p : Player) (dr dc : Int) :
    ∀ (fuel : Nat) (r c : Int) (f : Bool),
      canFlipLoop b p dr dc fuel r c f = true ↔
        ∃ n : Nat, n < fuel ∧
          (∀ j : Nat, j < n → bget b (r + (j : Int) * dr) (c + (j : Int) * dc) = some p.opp) ∧
          bget b (r + (n : Int) * dr) (c + (n : Int) * dc) = some p ∧
          (f = true ∨ 1 ≤ n) := by
  intro fuel
  induction fuel with
  | zero =>
    intro r c f
    simp only [canFlipLoop]
    constructor
    · intro h; cases h
    · rintro ⟨n, hn, -⟩; omega
  | succ fuel ih =>
    intro r c f
    simp only [canFlipLoop]
    by_cases hb : inB r c
    · rw [if_pos hb]
      rcases cell_cases (bget b r c) p with hq | hq | hq
      · rw [if_pos hq]
        constructor
        · intro h; cases h
        · rintro ⟨n, hn, hrun, hterm, -⟩
          exfalso
          rcases Nat.eq_zero_or_pos n with rfl | hpos
          · rw [bget_congr_idx _ (by push_cast; ring) (by push_cast; ring), hq] at hterm
            cases hterm
          · have h0 := hrun 0 hpos
            rw [bget_congr_idx _ (by push_cast; ring) (by push_cast; ring), hq] at h0
            cases h0
      · rw [if_neg (by rw [hq]; simp), if_pos hq, ih]
        constructor
        · rintro ⟨m, hm, hrun, hterm, -⟩
          refine ⟨m + 1, by omega, ?_, ?_, Or.inr (by omega)⟩
          · intro j hj
            match j with
            | 0 =>
              rw [bget_congr_idx _ (show r + ((0 : Nat) : Int) * dr = r by push_cast; ring)
                (show c + ((0 : Nat) : Int) * dc = c by push_cast; ring)]
              exact hq
            | (i + 1) =>
              rw [bget_congr_idx _
                (show r + ((i + 1 : Nat) : Int) * dr = r + dr + (i : Int) * dr by push_cast; ring)
                (show c + ((i + 1 : Nat) : Int) * dc = c + dc + (i : Int) * dc by push_cast; ring)]
              exact hrun i (by omega)
          · rw [bget_congr_idx _
              (show r + ((m + 1 : Nat) : Int) * dr = r + dr + (m : Int) * dr by push_cast; ring)
              (show c + ((m + 1 : Nat) : Int) * dc = c + dc + (m : Int) * dc by push_cast; ring)]
            exact hterm
        · rintro ⟨n, hn, hrun, hterm, hflag⟩
          match n, hn with
          | 0, hn =>
            rw [bget_congr_idx _ (show r + ((0 : Nat) : Int) * dr = r by push_cast; ring)
              (show c + ((0 : Nat) : Int) * dc = c by push_cast; ring), hq] at hterm
            have : p.opp = p := by injection hterm
            exact absurd this (Player.opp_ne p)
          | (m + 1), hn =>
            refine ⟨m, by omega, ?_, ?_, Or.inl rfl⟩
            · intro j hj
              have := hrun (j + 1) (by omega)
              rw [bget_congr_idx _
                (show r + ((j + 1 : Nat) : Int) * dr = r + dr + (j : Int) * dr by push_cast; ring)
                (show c + ((j + 1 : Nat) : Int) * dc = c + dc + (j : Int) * dc by push_cast; ring)] at this
              exact this
            · rw [bget_congr_idx _
                (show r + ((m + 1 : Nat) : Int) * dr = r + dr + (m : Int) * dr by push_cast; ring)
                (show c + ((m + 1 : Nat) : Int) * dc = c + dc + (m : Int) * dc by push_cast; ring)] at hterm
              exact hterm
      · have hnn : bget b r c ≠ none := by rw [hq]; simp
        have hno : bget b r c ≠ some p.opp := by
          rw [hq]
          intro h
          have : p = p.opp := by injection h
          exact absurd this.symm (Player.opp_ne p)
        rw [if_neg hnn, if_neg hno]
        constructor
        · intro hf
          refine ⟨0, by omega, fun j hj => absurd hj (by omega), ?_, Or.inl hf⟩
          rw [bget_congr_idx _ (show r + ((0 : Nat) : Int) * dr = r by push_cast; ring)
            (show c + ((0 : Nat) : Int) * dc = c by push_cast; ring)]
          exact hq
        · rintro ⟨n, hn, hrun, hterm, hflag⟩
          match n, hn with
          | 0, hn => exact hflag.resolve_right (by omega)
          | (m + 1), hn =>
            have h0 := hrun 0 (by omega)
            rw [bget_congr_idx _ (show r + ((0 : Nat) : Int) * dr = r by push_cast; ring)
              (show c + ((0 : Nat) : Int) * dc = c by push_cast; ring), hq] at h0
            have : p = p.opp := by injection h0
            exact absurd this.symm (Player.opp_ne p)
    · rw [if_neg hb]
      constructor
      · intro h; cases h
      · rintro ⟨n, hn, hrun, hterm, -⟩
        exfalso
        rcases Nat.eq_zero_or_pos n with rfl | hpos
        · rw [bget_congr_idx _ (show r + ((0 : Nat) : Int) * dr = r by push_cast; ring)
            (show c + ((0 : Nat) : Int) * dc = c by push_cast; ring)] at hterm
          exact hb (bget_some_inB hterm)
        · have h0 := hrun 0 hpos
          rw [bget_congr_idx _ (show r + ((0 : Nat) : Int) * dr = r by push_cast; ring)
            (show c + ((0 : Nat) : Int) * dc = c by push_cast; ring)] at h0
          exact hb (bget_some_inB h0)


/-! ## Directions -/

theorem DIRECTIONS_ne_zero {d : Int × Int} (hd : d ∈ DIRECTIONS) :
    ¬(d.1 = 0 ∧ d.2 = 0) := by
  fin_cases hd <;> simp

/-- `_can_flip_direction` holds exactly when the ray from `(row, col)` in
direction `d` carries a nonempty contiguous run of opponent discs starting
at the adjacent cell, immediately followed by an own disc (everything still
on the board). -/
theorem can_flip_iff {b : Board} {row col : Int} {d : Int × Int} {p : Player}
    (hd : d ∈ DIRECTIONS) :
    can_flip_direction b row col d.1 d.2 p = true ↔
      ∃ n : Nat, 1 ≤ n ∧
        (∀ j : Nat, 1 ≤ j → j ≤ n →
          bget b (row + (j : Int) * d.1) (col + (j : Int) * d.2) = some p.opp) ∧
        bget b (row + ((n + 1 : Nat) : Int) * d.1) (col + ((n + 1 : Nat) : Int) * d.2) = some p := by
  rw [can_flip_direction, canFlipLoop_iff]
  constructor
  · rintro ⟨m, hm, hrun, hterm, hflag⟩
    have hm1 : 1 ≤ m := by
      rcases hflag with hf | hf
      · cases hf
      · exact hf
    refine ⟨m, hm1, ?_, ?_⟩
    · intro j hj1 hjm
      match j, hj1 with
      | (i + 1), _ =>
        rw [bget_congr_idx _
          (show row + ((i + 1 : Nat) : Int) * d.1 = row + d.1 + (i : Int) * d.1 by push_cast; ring)
          (show col + ((i + 1 : Nat) : Int) * d.2 = col + d.2 + (i : Int) * d.2 by push_cast; ring)]
        exact hrun i (by omega)
    · rw [bget_congr_idx _
        (show row + ((m + 1 : Nat) : Int) * d.1 = row + d.1 + (m : Int) * d.1 by push_cast; ring)
        (show col + ((m + 1 : Nat) : Int) * d.2 = col + d.2 + (m : Int) * d.2 by push_cast; ring)]
      exact hterm
  · rintro ⟨n, hn1, hrun, hterm⟩
    have hn8 : n < 8 := by
      by_contra h8
      have hA := bget_some_inB (hrun 1 le_rfl (by omega))
      have hB := bget_some_inB hterm
      simp only [inB] at hA hB
      push_cast at hA hB
      fin_cases hd <;> simp only at hA hB <;> omega
    refine ⟨n, by omega, ?_, ?_, Or.inr hn1⟩
    · intro j hj
      rw [bget_congr_idx _
        (show row + d.1 + (j : Int) * d.1 = row + ((j + 1 : Nat) : Int) * d.1 by push_cast; ring)
        (show col + d.2 + (j : Int) * d.2 = col + ((j + 1 : Nat) : Int) * d.2 by push_cast; ring)]
      exact hrun (j + 1) (by omega) (by omega)
    · rw [bget_congr_idx _
        (show row + d.1 + (n : Int) * d.1 = row + ((n + 1 : Nat) : Int) * d.1 by push_cast; ring)
        (show col + d.2 + (n : Int) * d.2 = col + ((n + 1 : Nat) : Int) * d.2 by push_cast; ring)]
      exact hterm

/-! ## Valid moves -/

theorem is_valid_move_inB {b : Board} {row col : Int} {p : Player}
    (h : is_valid_move b row col p = true) : inB row col := by
  by_cases hb : inB row col
  · exact hb
  · rw [is_valid_move, if_neg hb] at h; cases h

theorem is_valid_move_empty {b : Board} {row col : Int} {p : Player}
    (h : is_valid_move b row col p = true) : bget b row col = none := by
  have hb := is_valid_move_inB h
  rw [is_valid_move, if_pos hb] at h
  by_cases he : bget b row col = none
  · exact he
  · rw [if_neg he] at h; cases h

theorem is_valid_move_exists_dir {b : Board} {row col : Int} {p : Player}
    (h : is_valid_move b row col p = true) :
    ∃ d ∈ DIRECTIONS, can_flip_direction b row col d.1 d.2 p = true := by
  have hb := is_valid_move_inB h
  have he := is_valid_move_empty h
  rw [is_valid_move, if_pos hb, if_pos he, List.any_eq_true] at h
  exact h


/-! ## The flip walk -/

theorem canFlipLoop_congr {b1 b2 : Board} (p : Player) (dr dc : Int) :
    ∀ (fuel : Nat) (r c : Int),
      (∀ k : Nat, bget b1 (r + (k : Int) * dr) (c + (k : Int) * dc) =
        bget b2 (r + (k : Int) * dr) (c + (k : Int) * dc)) →
      ∀ f, canFlipLoop b1 p dr dc fuel r c f = canFlipLoop b2 p dr dc fuel r c f := by
  intro fuel
  induction fuel with
  | zero => intro r c h f; rfl
  | succ fuel ih =>
    intro r c h f
    have h0 : bget b1 r c = bget b2 r c := by
      have h0 := h 0
      rw [bget_congr_idx b1 (show r + ((0 : Nat) : Int) * dr = r by push_cast; ring)
          (show c + ((0 : Nat) : Int) * dc = c by push_cast; ring),
        bget_congr_idx b2 (show r + ((0 : Nat) : Int) * dr = r by push_cast; ring)
          (show c + ((0 : Nat) : Int) * dc = c by push_cast; ring)] at h0
      exact h0
    have hsh : ∀ k : Nat, bget b1 (r + dr + (k : Int) * dr) (c + dc + (k : Int) * dc) =
        bget b2 (r + dr + (k : Int) * dr) (c + dc + (k : Int) * dc) := by
      intro k
      have hk := h (k + 1)
      rw [bget_congr_idx b1
          (show r + ((k + 1 : Nat) : Int) * dr = r + dr + (k : Int) * dr by push_cast; ring)
          (show c + ((k + 1 : Nat) : Int) * dc = c + dc + (k : Int) * dc by push_cast; ring),
        bget_congr_idx b2
          (show r + ((k + 1 : Nat) : Int) * dr = r + dr + (k : Int) * dr by push_cast; ring)
          (show c + ((k + 1 : Nat) : Int) * dc = c + dc + (k : Int) * dc by push_cast; ring)] at hk
      exact hk
    simp only [canFlipLoop, h0]
    by_cases hb : inB r c
    · rw [if_pos hb, if_pos hb]
      rcases cell_cases (bget b2 r c) p with hq | hq | hq
      · rw [hq]; simp
      · rw [hq]
        have hne : (some p.opp : Cell) ≠ none := by simp
        rw [if_neg hne, if_neg hne, if_pos rfl, if_pos rfl]
        exact ih (r + dr) (c + dc) hsh true
      · rw [hq]
        have hne : (some p : Cell) ≠ none := by simp
        have hno : (some p : Cell) ≠ some p.opp := by
          intro hcon
          have : p = p.opp := by injection hcon
          exact absurd this.symm (Player.opp_ne p)
        rw [if_neg hne, if_neg hne, if_neg hno, if_neg hno]
    · rw [if_neg hb, if_neg hb]

theorem can_flip_congr {b1 b2 : Board} {row col : Int} (d : Int × Int) (p : Player)
    (h : ∀ k : Nat, 1 ≤ k →
      bget b1 (row + (k : Int) * d.1) (col + (k : Int) * d.2) =
        bget b2 (row + (k : Int) * d.1) (col + (k : Int) * d.2)) :
    can_flip_direction b1 row col d.1 d.2 p = can_flip_direction b2 row col d.1 d.2 p := by
  unfold can_flip_direction
  apply canFlipLoop_congr
  intro k
  have hk := h (k + 1) (by omega)
  rw [bget_congr_idx b1
      (show row + ((k + 1 : Nat) : Int) * d.1 = row + d.1 + (k : Int) * d.1 by push_cast; ring)
      (show col + ((k + 1 : Nat) : Int) * d.2 = col + d.2 + (k : Int) * d.2 by push_cast; ring),
    bget_congr_idx b2
      (show row + ((k + 1 : Nat) : Int) * d.1 = row + d.1 + (k : Int) * d.1 by push_cast; ring)
      (show col + ((k + 1 : Nat) : Int) * d.2 = col + d.2 + (k : Int) * d.2 by push_cast; ring)] at hk
  exact hk

/-- Distinct direction rays out of the same origin never meet again. -/
theorem ray_disjoint {d d' : Int × Int} (hd : d ∈ DIRECTIONS) (hd' : d' ∈ DIRECTIONS)
    (hne : d ≠ d') {row col : Int} {k k' : Nat} (hk : 1 ≤ k) (hk' : 1 ≤ k')
    (e1 : row + (k : Int) * d.1 = row + (k' : Int) * d'.1)
    (e2 : col + (k : Int) * d.2 = col + (k' : Int) * d'.2) : False := by
  fin_cases hd <;> fin_cases hd' <;>
    first
      | exact hne rfl
      | (simp only at e1 e2; omega)

/-- A ray cell with positive index is never the origin (directions are
nonzero). -/
theorem ray_ne_origin {d : Int × Int} (hd : d ∈ DIRECTIONS) {row col : Int} {k : Nat}
    (hk : 1 ≤ k) (e1 : row + (k : Int) * d.1 = row) (e2 : col + (k : Int) * d.2 = col) :
    False := by
  fin_cases hd <;> simp only at e1 e2 <;> omega

/-- What `flipLoop` does when the walk from `(r, c)` sees `n` opponent discs
and then an own disc: exactly those `n` opponent cells are overwritten with
`player`, nothing else changes. -/
theorem flipLoop_run (p : Player) (dr dc : Int) (hd0 : ¬(dr = 0 ∧ dc = 0)) :
    ∀ (n fuel : Nat) (b : Board) (r c : Int), n < fuel →
      (∀ j : Nat, j < n → bget b (r + (j : Int) * dr) (c + (j : Int) * dc) = some p.opp) →
      bget b (r + (n : Int) * dr) (c + (n : Int) * dc) = some p →
      ∀ x y : Int, bget (flipLoop p dr dc fuel b r c) x y =
        if ∃ k : Nat, k < n ∧ x = r + (k : Int) * dr ∧ y = c + (k : Int) * dc then some p
        else bget b x y := by
  intro n
  induction n with
  | zero =>
    intro fuel b r c hf hrun hterm x y
    match fuel, hf with
    | (fuel + 1), _ =>
      have hterm' : bget b r c = some p := by
        rw [bget_congr_idx b (show r + ((0 : Nat) : Int) * dr = r by push_cast; ring)
          (show c + ((0 : Nat) : Int) * dc = c by push_cast; ring)] at hterm
        exact hterm
      have hb : inB r c := bget_some_inB hterm'
      have hno : bget b r c ≠ some p.opp := by
        rw [hterm']
        intro hcon
        have : p = p.opp := by injection hcon
        exact absurd this.symm (Player.opp_ne p)
      simp only [flipLoop]
      rw [if_pos hb, if_neg hno, if_pos hterm', if_neg]
      rintro ⟨k, hk, -⟩
      omega
  | succ m ih =>
    intro fuel b r c hf hrun hterm x y
    match fuel, hf with
    | (fuel + 1), hf =>
      have h0 : bget b r c = some p.opp := by
        have h0 := hrun 0 (by omega)
        rw [bget_congr_idx b (show r + ((0 : Nat) : Int) * dr = r by push_cast; ring)
          (show c + ((0 : Nat) : Int) * dc = c by push_cast; ring)] at h0
        exact h0
      have hb : inB r c := bget_some_inB h0
      have hnz : ∀ k : Nat, 1 ≤ k →
          ¬(r + (k : Int) * dr = r ∧ c + (k : Int) * dc = c) := by
        rintro k hk ⟨e1, e2⟩
        apply hd0
        have hkz : (0 : Int) < (k : Int) := by exact_mod_cast hk
        constructor
        · rcases mul_eq_zero.mp (show (k : Int) * dr = 0 by omega) with hcon | hcon
          · omega
          · exact hcon
        · rcases mul_eq_zero.mp (show (k : Int) * dc = 0 by omega) with hcon | hcon
          · omega
          · exact hcon
      simp only [flipLoop]
      rw [if_pos hb, if_pos h0]
      have hrun' : ∀ j : Nat, j < m →
          bget (bset b r c (some p)) (r + dr + (j : Int) * dr) (c + dc + (j : Int) * dc) =
            some p.opp := by
        intro j hj
        rw [bget_congr_idx (bset b r c (some p))
            (show r + dr + (j : Int) * dr = r + ((j + 1 : Nat) : Int) * dr by push_cast; ring)
            (show c + dc + (j : Int) * dc = c + ((j + 1 : Nat) : Int) * dc by push_cast; ring),
          bget_bset,
          if_neg (fun hcon => hnz (j + 1) (by omega) ⟨hcon.1, hcon.2.1⟩)]
        exact hrun (j + 1) (by omega)
      have hterm' : bget (bset b r c (some p))
          (r + dr + (m : Int) * dr) (c + dc + (m : Int) * dc) = some p := by
        rw [bget_congr_idx (bset b r c (some p))
            (show r + dr + (m : Int) * dr = r + ((m + 1 : Nat) : Int) * dr by push_cast; ring)
            (show c + dc + (m : Int) * dc = c + ((m + 1 : Nat) : Int) * dc by push_cast; ring),
          bget_bset,
          if_neg (fun hcon => hnz (m + 1) (by omega) ⟨hcon.1, hcon.2.1⟩)]
        exact hterm
      rw [ih fuel (bset b r c (some p)) (r + dr) (c + dc) (by omega) hrun' hterm' x y]
      by_cases hx : ∃ k : Nat, k < m + 1 ∧ x = r + (k : Int) * dr ∧ y = c + (k : Int) * dc
      · rw [if_pos hx]
        rcases hx with ⟨k, hk, hxe, hye⟩
        match k, hk with
        | 0, hk =>
          have hxr : x = r := by rw [hxe]; push_cast; ring
          have hyc : y = c := by rw [hye]; push_cast; ring
          rw [if_neg, bget_bset, if_pos ⟨hxr, hyc, by rw [hxr, hyc]; exact hb⟩]
          rintro ⟨k', hk', e1, e2⟩
          have h1 := hxr.symm.trans e1
          have h2 := hyc.symm.trans e2
          refine hnz (k' + 1) (by omega) ⟨?_, ?_⟩
          · push_cast
            linear_combination (-1 : ℤ) * h1
          · push_cast
            linear_combination (-1 : ℤ) * h2
        | (i + 1), hk =>
          rw [if_pos]
          exact ⟨i, by omega, by rw [hxe]; push_cast; ring, by rw [hye]; push_cast; ring⟩
      · rw [if_neg hx, if_neg, bget_bset, if_neg]
        · rintro ⟨hxr, hyc, -⟩
          exact hx ⟨0, by omega, by rw [hxr]; push_cast; ring, by rw [hyc]; push_cast; ring⟩
        · rintro ⟨k', hk', e1, e2⟩
          exact hx ⟨k' + 1, by omega, by rw [e1]; push_cast; ring, by rw [e2]; push_cast; ring⟩


/-! ## The effect of `make_move` -/

/-- Membership of a cell in the set of discs that playing `(row, col)` for
`p` converts in direction `d`: the cell sits at a positive offset `k` on the
ray, every ray cell from the adjacent one up to it holds an opponent disc,
and the direction is one where a flip is legal (the run is closed by an own
disc).  This is claim C1's "opponent discs lying in closed
same-side-terminated opponent runs starting adjacent to `(row, col)`". -/
def inFlipRun (b : Board) (row col : Int) (d : Int × Int) (p : Player) (x y : Int) : Prop :=
  can_flip_direction b row col d.1 d.2 p = true ∧
  ∃ k : Nat, 1 ≤ k ∧ x = row + (k : Int) * d.1 ∧ y = col + (k : Int) * d.2 ∧
    ∀ j : Nat, 1 ≤ j → j ≤ k →
      bget b (row + (j : Int) * d.1) (col + (j : Int) * d.2) = some p.opp

/-- An opponent run that is closed by an own disc fits on the board. -/
theorem run_lt_eight {b : Board} {row col : Int} {d : Int × Int} {p : Player}
    (hd : d ∈ DIRECTIONS) {n : Nat} (hn1 : 1 ≤ n)
    (hrun : ∀ j : Nat, 1 ≤ j → j ≤ n →
      bget b (row + (j : Int) * d.1) (col + (j : Int) * d.2) = some p.opp)
    (hterm : bget b (row + ((n + 1 : Nat) : Int) * d.1)
      (col + ((n + 1 : Nat) : Int) * d.2) = some p) :
    n < 8 := by
  by_contra h8
  have hA := bget_some_inB (hrun 1 le_rfl hn1)
  have hB := bget_some_inB hterm
  simp only [inB] at hA hB
  push_cast at hA hB
  fin_cases hd <;> simp only at hA hB <;> omega

/-- Under the data of a legal flip of run length `n`, a cell lies in the
flip set iff it is a ray cell with index between `1` and `n`. -/
theorem inFlipRun_iff {b : Board} {row col : Int} {d : Int × Int} {p : Player}
    (hcf : can_flip_direction b row col d.1 d.2 p = true) {n : Nat}
    (hrun : ∀ j : Nat, 1 ≤ j → j ≤ n →
      bget b (row + (j : Int) * d.1) (col + (j : Int) * d.2) = some p.opp)
    (hterm : bget b (row + ((n + 1 : Nat) : Int) * d.1)
      (col + ((n + 1 : Nat) : Int) * d.2) = some p) (x y : Int) :
    inFlipRun b row col d p x y ↔
      ∃ k : Nat, 1 ≤ k ∧ k ≤ n ∧ x = row + (k : Int) * d.1 ∧ y = col + (k : Int) * d.2 := by
  constructor
  · rintro ⟨-, k, hk1, hxe, hye, hkrun⟩
    refine ⟨k, hk1, ?_, hxe, hye⟩
    by_contra hgt
    have h1 := hkrun (n + 1) (by omega) (by omega)
    have hcon := h1.symm.trans hterm
    have : p.opp = p := by injection hcon
    exact absurd this (Player.opp_ne p)
  · rintro ⟨k, hk1, hkn, hxe, hye⟩
    exact ⟨hcf, k, hk1, hxe, hye, fun j hj1 hjk => hrun j hj1 (by omega)⟩

open Classical in
/-- Invariant of the direction loop of `make_move`: after processing the
directions of `P`, the board holds the placed disc, the conversions of the
directions already processed, and nothing else; processing the remaining
directions `S` extends this to all of them. -/
theorem flip_fold_char (b : Board) (row col : Int) (p : Player) :
    ∀ (S P : List (Int × Int)) (acc : Board),
      DIRECTIONS = P ++ S →
      (∀ x y : Int, bget acc x y =
        if x = row ∧ y = col then some p
        else if ∃ d' ∈ P, inFlipRun b row col d' p x y then some p
        else bget b x y) →
      ∀ x y : Int, bget (S.foldl (fun a d =>
          if can_flip_direction a row col d.1 d.2 p then
            flip_direction a row col d.1 d.2 p
          else a) acc) x y =
        if x = row ∧ y = col then some p
        else if ∃ d' ∈ P ++ S, inFlipRun b row col d' p x y then some p
        else bget b x y := by
  intro S
  induction S with
  | nil =>
    intro P acc hPS hacc x y
    simpa using hacc x y
  | cons d S ih =>
    intro P acc hPS hacc x y
    rw [List.foldl_cons, List.append_cons]
    have hdD : d ∈ DIRECTIONS := by
      rw [hPS]; exact List.mem_append_right _ (List.mem_cons_self _ _)
    have hnd : DIRECTIONS.Nodup := by decide
    have hdisj : P.Disjoint (d :: S) := by
      rw [hPS] at hnd
      exact List.disjoint_of_nodup_append hnd
    have hagree : ∀ k : Nat, 1 ≤ k →
        bget acc (row + (k : Int) * d.1) (col + (k : Int) * d.2) =
          bget b (row + (k : Int) * d.1) (col + (k : Int) * d.2) := by
      intro k hk
      rw [hacc]
      rw [if_neg, if_neg]
      · rintro ⟨d', hd'P, -, k', hk'1, hxe, hye, -⟩
        have hd'D : d' ∈ DIRECTIONS := by rw [hPS]; exact List.mem_append_left _ hd'P
        have hne : d' ≠ d := fun he => (hdisj hd'P) (he ▸ List.mem_cons_self _ _)
        exact ray_disjoint hd'D hdD hne hk'1 hk hxe.symm hye.symm
      · rintro ⟨e1, e2⟩
        exact ray_ne_origin hdD hk e1 e2
    have hcfeq : can_flip_direction acc row col d.1 d.2 p =
        can_flip_direction b row col d.1 d.2 p := can_flip_congr d p hagree
    have hPS' : DIRECTIONS = (P ++ [d]) ++ S := by rw [hPS, List.append_assoc]; rfl
    by_cases hcf : can_flip_direction b row col d.1 d.2 p = true
    · rw [hcfeq, if_pos hcf]
      obtain ⟨n, hn1, hrun, hterm⟩ := (can_flip_iff hdD).mp hcf
      have hn8 : n < 8 := run_lt_eight hdD hn1 hrun hterm
      have hrunacc : ∀ j : Nat, j < n →
          bget acc (row + d.1 + (j : Int) * d.1) (col + d.2 + (j : Int) * d.2) =
            some p.opp := by
        intro j hj
        rw [bget_congr_idx acc
            (show row + d.1 + (j : Int) * d.1 = row + ((j + 1 : Nat) : Int) * d.1 by
              push_cast; ring)
            (show col + d.2 + (j : Int) * d.2 = col + ((j + 1 : Nat) : Int) * d.2 by
              push_cast; ring),
          hagree (j + 1) (by omega)]
        exact hrun (j + 1) (by omega) (by omega)
      have htermacc : bget acc (row + d.1 + (n : Int) * d.1)
          (col + d.2 + (n : Int) * d.2) = some p := by
        rw [bget_congr_idx acc
            (show row + d.1 + (n : Int) * d.1 = row + ((n + 1 : Nat) : Int) * d.1 by
              push_cast; ring)
            (show col + d.2 + (n : Int) * d.2 = col + ((n + 1 : Nat) : Int) * d.2 by
              push_cast; ring),
          hagree (n + 1) (by omega)]
        exact hterm
      have hflip := flipLoop_run p d.1 d.2 (DIRECTIONS_ne_zero hdD) n 8 acc
        (row + d.1) (col + d.2) hn8 hrunacc htermacc
      apply ih (P ++ [d]) _ hPS'
      · intro x' y'
        have hfd : flip_direction acc row col d.1 d.2 p =
            flipLoop p d.1 d.2 8 acc (row + d.1) (col + d.2) := rfl
        rw [hfd, hflip x' y']
        by_cases hrc : x' = row ∧ y' = col
        · rw [if_neg, if_pos hrc, hacc, if_pos hrc]
          rintro ⟨k, hk, e1, e2⟩
          have h1 := hrc.1 ▸ e1
          have h2 := hrc.2 ▸ e2
          have e1' : row + ((k + 1 : Nat) : Int) * d.1 = row := by
            push_cast
            linear_combination (-1 : ℤ) * h1
          have e2' : col + ((k + 1 : Nat) : Int) * d.2 = col := by
            push_cast
            linear_combination (-1 : ℤ) * h2
          exact ray_ne_origin hdD (by omega) e1' e2'
        · by_cases hQ : ∃ d' ∈ P ++ [d], inFlipRun b row col d' p x' y'
          · rw [if_neg hrc, if_pos hQ]
            obtain ⟨d', hd'PS, hruns⟩ := hQ
            rcases List.mem_append.mp hd'PS with hd'P | hd'd
            · by_cases hin : ∃ k : Nat, k < n ∧ x' = row + d.1 + (k : Int) * d.1 ∧
                  y' = col + d.2 + (k : Int) * d.2
              · rw [if_pos hin]
              · rw [if_neg hin, hacc, if_neg hrc, if_pos ⟨d', hd'P, hruns⟩]
            · have hd'e : d' = d := by simpa using hd'd
              subst hd'e
              obtain ⟨k, hk1, hkn, hxe, hye⟩ := (inFlipRun_iff hcf hrun hterm x' y').mp hruns
              rw [if_pos]
              refine ⟨k - 1, by omega, ?_, ?_⟩
              · rw [hxe]
                have : ((k : Nat) : Int) = ((k - 1 : Nat) : Int) + 1 := by
                  push_cast [Nat.cast_sub hk1]; ring
                rw [this]; ring
              · rw [hye]
                have : ((k : Nat) : Int) = ((k - 1 : Nat) : Int) + 1 := by
                  push_cast [Nat.cast_sub hk1]; ring
                rw [this]; ring
          · rw [if_neg hrc, if_neg hQ, if_neg, hacc, if_neg hrc, if_neg]
            · rintro ⟨d', hd'P, hruns⟩
              exact hQ ⟨d', List.mem_append_left _ hd'P, hruns⟩
            · rintro ⟨k, hk, e1, e2⟩
              apply hQ
              refine ⟨d, List.mem_append_right _ (List.mem_cons_self _ _), ?_⟩
              rw [inFlipRun_iff hcf hrun hterm x' y']
              refine ⟨k + 1, by omega, by omega, ?_, ?_⟩
              · rw [e1]; push_cast; ring
              · rw [e2]; push_cast; ring
    · rw [hcfeq, if_neg hcf]
      apply ih (P ++ [d]) acc hPS'
      intro x' y'
      rw [hacc x' y']
      by_cases hrc : x' = row ∧ y' = col
      · rw [if_pos hrc, if_pos hrc]
      · rw [if_neg hrc, if_neg hrc]
        by_cases hP : ∃ d' ∈ P, inFlipRun b row col d' p x' y'
        · rw [if_pos hP]
          obtain ⟨d', hd'P, hruns⟩ := hP
          rw [if_pos ⟨d', List.mem_append_left _ hd'P, hruns⟩]
        · rw [if_neg hP, if_neg]
          rintro ⟨d', hd'PS, hruns⟩
          rcases List.mem_append.mp hd'PS with hd'P | hd'd
          · exact hP ⟨d', hd'P, hruns⟩
          · have hd'e : d' = d := by simpa using hd'd
            subst hd'e
            exact hcf hruns.1

open Classical in
/-- Cell-level characterisation of a legal `make_move`: the move succeeds,
the placed cell holds the mover's disc, the cells of the closed opponent
runs of the 8 directions hold the mover's disc, and every other cell is
unchanged. -/
theorem make_move_char {b : Board} {row col : Int} {p : Player}
    (h : is_valid_move b row col p = true) :
    (make_move b row col p).1 = true ∧
    ∀ x y : Int, bget (make_move b row col p).2 x y =
      if x = row ∧ y = col then some p
      else if ∃ d ∈ DIRECTIONS, inFlipRun b row col d p x y then some p
      else bget b x y := by
  have hb := is_valid_move_inB h
  have hmm : make_move b row col p =
      (true, DIRECTIONS.foldl (fun acc d =>
        if can_flip_direction acc row col d.1 d.2 p then
          flip_direction acc row col d.1 d.2 p
        else acc) (bset b row col (some p))) := by
    rw [make_move, if_pos h]
  refine ⟨by rw [hmm], ?_⟩
  intro x y
  rw [hmm]
  have hstart : ∀ x' y' : Int, bget (bset b row col (some p)) x' y' =
      if x' = row ∧ y' = col then some p
      else if ∃ d' ∈ ([] : List (Int × Int)), inFlipRun b row col d' p x' y' then some p
      else bget b x' y' := by
    intro x' y'
    rw [bget_bset]
    by_cases hrc : x' = row ∧ y' = col
    · rw [if_pos ⟨hrc.1, hrc.2, by rw [hrc.1, hrc.2]; exact hb⟩, if_pos hrc]
    · rw [if_neg (fun hc => hrc ⟨hc.1, hc.2.1⟩), if_neg hrc, if_neg]
      rintro ⟨d', hd', -⟩
      cases hd'
  have hfold := flip_fold_char b row col p DIRECTIONS [] (bset b row col (some p)) rfl
    hstart x y
  simpa using hfold


/-! ## Valid-move list and counting -/

theorem mem_get_valid_moves {b : Board} {p : Player} {m : Move} :
    m ∈ get_valid_moves b p ↔
      ∃ r c : Nat, r < 8 ∧ c < 8 ∧ is_valid_move b (r : Int) (c : Int) p = true ∧
        m = ⟨(r : Int), (c : Int), 0⟩ := by
  simp only [get_valid_moves, List.mem_flatMap, List.mem_range]
  constructor
  · rintro ⟨r, hr, c, hc, hm⟩
    by_cases hv : is_valid_move b (r : Int) (c : Int) p = true
    · rw [if_pos hv] at hm
      simp only [List.mem_singleton] at hm
      exact ⟨r, c, hr, hc, hv, hm⟩
    · rw [if_neg hv] at hm
      cases hm
  · rintro ⟨r, c, hr, hc, hv, rfl⟩
    refine ⟨r, hr, c, hc, ?_⟩
    rw [if_pos hv]
    exact List.mem_singleton_self _

theorem valid_of_mem_moves {b : Board} {p : Player} {m : Move}
    (h : m ∈ get_valid_moves b p) : is_valid_move b m.row m.col p = true := by
  obtain ⟨r, c, hr, hc, hv, rfl⟩ := mem_get_valid_moves.mp h
  exact hv

/-- If the game is not over and one side cannot move, the other can. -/
theorem no_moves_opp {b : Board} {p : Player} (hgo : is_game_over b = false)
    (hm : get_valid_moves b p = []) : get_valid_moves b p.opp ≠ [] := by
  intro hcon
  rw [is_game_over, Bool.and_eq_false_iff] at hgo  -- placeholder, fixed below
  cases p <;> simp_all [Player.opp, List.isEmpty_iff]

/-- Any board of the embedding partitions its 64 cells into the two colours
and the empty cells. -/
theorem counts_partition (b : Board) :
    count_discs b .black + count_discs b .white + emptyCount b = 64 := by
  classical
  have hone : ∀ rc : Fin 8 × Fin 8,
      ((if bget b (rc.1 : Int) (rc.2 : Int) = some Player.black then 1 else 0) +
        ((if bget b (rc.1 : Int) (rc.2 : Int) = some Player.white then 1 else 0) +
          (if bget b (rc.1 : Int) (rc.2 : Int) = none then 1 else 0)) : Nat) = 1 := by
    intro rc
    rcases bget b (rc.1 : Int) (rc.2 : Int) with - | q
    · simp
    · cases q <;> simp
  unfold count_discs emptyCount
  rw [Finset.card_filter, Finset.card_filter, Finset.card_filter,
    add_assoc, ← Finset.sum_add_distrib, ← Finset.sum_add_distrib,
    Finset.sum_congr rfl (fun rc _ => hone rc), Finset.sum_const, smul_eq_mul, mul_one,
    Finset.card_univ]
  simp

/-- A legal move fills exactly one empty cell: flips turn opponent discs
into own discs, so only the placed disc changes the number of empties. -/
theorem emptyCount_make_move {b : Board} {row col : Int} {p : Player}
    (h : is_valid_move b row col p = true) :
    emptyCount (make_move b row col p).2 + 1 = emptyCount b := by
  classical
  have hb := is_valid_move_inB h
  have hchar := (make_move_char h).2
  obtain ⟨h1, h2, h3, h4⟩ := hb
  set rc : Fin 8 × Fin 8 := (⟨row.toNat, by omega⟩, ⟨col.toNat, by omega⟩) with hrc
  have hrow : ((rc.1 : Nat) : Int) = row := by simp [hrc]; omega
  have hcol : ((rc.2 : Nat) : Int) = col := by simp [hrc]; omega
  have hmem : rc ∈ (Finset.univ : Finset (Fin 8 × Fin 8)).filter
      (fun q => bget b (q.1 : Int) (q.2 : Int) = none) := by
    rw [Finset.mem_filter]
    refine ⟨Finset.mem_univ _, ?_⟩
    rw [hrow, hcol]
    exact is_valid_move_empty h
  have hset : (Finset.univ.filter (fun q : Fin 8 × Fin 8 =>
        bget (make_move b row col p).2 (q.1 : Int) (q.2 : Int) = none)) =
      (Finset.univ.filter (fun q : Fin 8 × Fin 8 =>
        bget b (q.1 : Int) (q.2 : Int) = none)).erase rc := by
    ext q
    rw [Finset.mem_erase, Finset.mem_filter, Finset.mem_filter]
    have hq := hchar (q.1 : Int) (q.2 : Int)
    constructor
    · rintro ⟨-, hqn⟩
      rw [hq] at hqn
      by_cases hqc : ((q.1 : Nat) : Int) = row ∧ ((q.2 : Nat) : Int) = col
      · rw [if_pos hqc] at hqn; cases hqn
      · rw [if_neg hqc] at hqn
        by_cases hfr : ∃ d ∈ DIRECTIONS, inFlipRun b row col d p (q.1 : Int) (q.2 : Int)
        · rw [if_pos hfr] at hqn; cases hqn
        · rw [if_neg hfr] at hqn
          refine ⟨?_, Finset.mem_univ _, hqn⟩
          intro hqe
          apply hqc
          rw [hqe, hrow, hcol]
          exact ⟨rfl, rfl⟩
    · rintro ⟨hne, -, hqn⟩
      refine ⟨Finset.mem_univ _, ?_⟩
      rw [hq]
      have hqc : ¬(((q.1 : Nat) : Int) = row ∧ ((q.2 : Nat) : Int) = col) := by
        intro hqc
        apply hne
        have e1 : q.1 = rc.1 := by
          apply Fin.ext
          have := hqc.1
          rw [← hrow] at this
          exact_mod_cast this
        have e2 : q.2 = rc.2 := by
          apply Fin.ext
          have := hqc.2
          rw [← hcol] at this
          exact_mod_cast this
        exact Prod.ext e1 e2
      rw [if_neg hqc]
      have hfr : ¬∃ d ∈ DIRECTIONS, inFlipRun b row col d p (q.1 : Int) (q.2 : Int) := by
        rintro ⟨d, hd, -, k, hk1, hxe, hye, hkrun⟩
        have := hkrun k hk1 le_rfl
        rw [← hxe, ← hye, hqn] at this
        cases this
      rw [if_neg hfr]
      exact hqn
  unfold emptyCount
  rw [hset, Finset.card_erase_of_mem hmem]
  have hpos : 0 < (Finset.univ.filter (fun q : Fin 8 × Fin 8 =>
      bget b (q.1 : Int) (q.2 : Int) = none)).card :=
    Finset.card_pos.mpr ⟨rc, hmem⟩
  omega

/-! ## Claims about the rules engine -/

/-- **C2**: `is_valid_move(row, col, side)` returns true iff `(row, col)` is
in bounds, the cell is `EMPTY`, and at least one of the 8 ray directions from
that cell carries a contiguous run of one or more opponent discs immediately
followed by a same-side disc (all on the board, so the run is reached before
running off the board or hitting an empty cell).  The embedded call is a pure
function, so it cannot modify the board. -/
theorem claim_C2_is_valid_move_iff (b : Board) (row col : Int) (p : Player) :
    is_valid_move b row col p = true ↔
      inB row col ∧ bget b row col = none ∧
      ∃ d ∈ DIRECTIONS, ∃ n : Nat, 1 ≤ n ∧
        (∀ j : Nat, 1 ≤ j → j ≤ n →
          bget b (row + (j : Int) * d.1) (col + (j : Int) * d.2) = some p.opp) ∧
        bget b (row + ((n + 1 : Nat) : Int) * d.1)
          (col + ((n + 1 : Nat) : Int) * d.2) = some p := by
  constructor
  · intro h
    refine ⟨is_valid_move_inB h, is_valid_move_empty h, ?_⟩
    obtain ⟨d, hd, hcf⟩ := is_valid_move_exists_dir h
    exact ⟨d, hd, (can_flip_iff hd).mp hcf⟩
  · rintro ⟨hb, he, d, hd, hn⟩
    rw [is_valid_move, if_pos hb, if_pos he, List.any_eq_true]
    exact ⟨d, hd, (can_flip_iff hd).mpr hn⟩

/-- **C1**: for in-bounds coordinates with `is_valid_move` true, `make_move`
returns true, places the mover's disc at `(row, col)`, converts to the mover
exactly the opponent discs lying in closed same-side-terminated opponent
runs starting adjacent to `(row, col)` in the 8 directions (each such cell
held an opponent disc and now holds the mover's), and changes no other
cell. -/
theorem claim_C1_make_move_flips (b : Board) (row col : Int) (p : Player)
    (hb : inB row col) (h : is_valid_move b row col p = true) :
    (make_move b row col p).1 = true ∧
    bget (make_move b row col p).2 row col = some p ∧
    (∀ x y : Int, (∃ d ∈ DIRECTIONS, inFlipRun b row col d p x y) →
      bget b x y = some p.opp ∧ bget (make_move b row col p).2 x y = some p) ∧
    (∀ x y : Int, ¬(x = row ∧ y = col) →
      ¬(∃ d ∈ DIRECTIONS, inFlipRun b row col d p x y) →
      bget (make_move b row col p).2 x y = bget b x y) := by
  classical
  obtain ⟨hres, hchar⟩ := make_move_char h
  refine ⟨hres, ?_, ?_, ?_⟩
  · rw [hchar row col, if_pos ⟨rfl, rfl⟩]
  · intro x y hQ
    have hwas : bget b x y = some p.opp := by
      obtain ⟨d, hd, -, k, hk1, hxe, hye, hkrun⟩ := hQ
      rw [hxe, hye]
      exact hkrun k hk1 le_rfl
    refine ⟨hwas, ?_⟩
    rw [hchar x y]
    by_cases hrc : x = row ∧ y = col
    · rw [if_pos hrc]
    · rw [if_neg hrc, if_pos hQ]
  · intro x y hrc hQ
    rw [hchar x y, if_neg hrc, if_neg hQ]

/-- Witness for C1: from the standard opening, BLACK plays (2, 3); the move
is legal and afterwards the placed cell holds a black disc. -/
theorem claim_C1_make_move_flips_witness :
    inB 2 3 ∧ is_valid_move initialBoard 2 3 Player.black = true ∧
    bget (make_move initialBoard 2 3 Player.black).2 2 3 = some Player.black :=
  ⟨by decide, by decide,
    (claim_C1_make_move_flips initialBoard 2 3 Player.black (by decide) (by decide)).2.1⟩

/-- **C5**: an illegal `make_move` request — out-of-bounds coordinates, an
occupied target cell, or no direction with a legal flip — returns `false`
and leaves the board unchanged (the embedded function is total, so no
exception can occur). -/
theorem claim_C5_make_move_rejects (b : Board) (row col : Int) (p : Player)
    (h : ¬ inB row col ∨ bget b row col ≠ none ∨
      ∀ d ∈ DIRECTIONS, can_flip_direction b row col d.1 d.2 p = false) :
    make_move b row col p = (false, b) := by
  have hv : is_valid_move b row col p = false := by
    rcases h with h | h | h
    · rw [is_valid_move, if_neg h]
    · by_cases hb : inB row col
      · rw [is_valid_move, if_pos hb, if_neg h]
      · rw [is_valid_move, if_neg hb]
    · by_cases hb : inB row col
      · by_cases he : bget b row col = none
        · rw [is_valid_move, if_pos hb, if_pos he, List.any_eq_false]
          intro d hd
          simp [h d hd]
        · rw [is_valid_move, if_pos hb, if_neg he]
      · rw [is_valid_move, if_neg hb]
  rw [make_move, if_neg]
  rw [hv]
  simp

/-- Witness for C5: on the initial board, (0, 0) is empty but no direction
flips, so the move is rejected without change; the out-of-bounds request
(-1, 9) is likewise rejected. -/
theorem claim_C5_make_move_rejects_witness :
    (∀ d ∈ DIRECTIONS, can_flip_direction initialBoard 0 0 d.1 d.2 Player.black = false) ∧
    make_move initialBoard 0 0 Player.black = (false, initialBoard) ∧
    make_move initialBoard (-1) 9 Player.white = (false, initialBoard) := by
  refine ⟨by decide, ?_, ?_⟩
  · exact claim_C5_make_move_rejects initialBoard 0 0 Player.black
      (Or.inr (Or.inr (by decide)))
  · exact claim_C5_make_move_rejects initialBoard (-1) 9 Player.white
      (Or.inl (by decide))

/-- **C7**: after any `make_move` call (legal or not), the black, white and
empty cell counts add up to 64; in the embedding every cell holds one of the
three values, so the 64 board cells always partition into the three
classes. -/
theorem claim_C7_disc_conservation (b : Board) (row col : Int) (p : Player) :
    count_discs (make_move b row col p).2 .black +
      count_discs (make_move b row col p).2 .white +
      emptyCount (make_move b row col p).2 = 64 :=
  counts_partition (make_move b row col p).2


/-! ## The AI: constants and static helpers (`SuperOthelloAI`) -/

/-- Game phases (`get_game_phase` values). -/
inductive Phase where
  | opening
  | midgame
  | endgame
  deriving DecidableEq, Repr

/-- `self.depth_config`. -/
def depth_config : Phase → Nat
  | .opening => 3
  | .midgame => 4
  | .endgame => 6

/-- `SuperOthelloAI.get_game_phase`. -/
def get_game_phase (b : Board) : Phase :=
  if 50 ≤ emptyCount b then .opening
  else if 20 ≤ emptyCount b then .midgame
  else .endgame

/-- `self.position_weights` (`_create_position_weights`). -/
def position_weights_rows : List (List Int) :=
  [[100, -20,  10,   5,   5,  10, -20, 100],
   [-20, -50,  -2,  -2,  -2,  -2, -50, -20],
   [ 10,  -2,  -1,  -1,  -1,  -1,  -2,  10],
   [  5,  -2,  -1,  -1,  -1,  -1,  -2,   5],
   [  5,  -2,  -1,  -1,  -1,  -1,  -2,   5],
   [ 10,  -2,  -1,  -1,  -1,  -1,  -2,  10],
   [-20, -50,  -2,  -2,  -2,  -2, -50, -20],
   [100, -20,  10,   5,   5,  10, -20, 100]]

/-- Lookup in the weight table at (row-major) indices. -/
def position_weights (r c : Nat) : Int :=
  (position_weights_rows.getD r []).getD c 0

/-- `self.corner_positions`. -/
def corner_positions : List (Int × Int) := [(0, 0), (0, 7), (7, 0), (7, 7)]

/-- `self.x_squares`. -/
def x_squares : List (Int × Int) := [(1, 1), (1, 6), (6, 1), (6, 6)]

/-- `self.c_squares`. -/
def c_squares : List (Int × Int) :=
  [(0, 1), (1, 0), (0, 6), (1, 7), (6, 0), (7, 1), (6, 7), (7, 6)]

/-- `SuperOthelloAI._is_edge_stable`: true on any border cell (the board and
player arguments are accepted and unused, as in the source). -/
def is_edge_stable (b : Board) (row col : Int) (p : Player) : Bool :=
  if row = 0 ∨ row = 7 then true
  else if col = 0 ∨ col = 7 then true
  else false

/-! ## Stability (`_calculate_stability` and helpers) -/

/-- The walk of `_is_direction_stable`: stops with `True` at an empty cell,
an own disc, or the edge of the board; keeps walking over opponent discs.
Every exit of the source loop returns `True`, so the function is constantly
true; the walk is embedded anyway, with the usual budget 8. -/
def dirStableLoop (b : Board) (p : Player) (dr dc : Int) : Nat → Int → Int → Bool
  | 0, _, _ => true
  | fuel + 1, nr, nc =>
    if inB nr nc then
      if bget b nr nc = none then true
      else if bget b nr nc = some p then true
      else dirStableLoop b p dr dc fuel (nr + dr) (nc + dc)
    else true

/-- `SuperOthelloAI._is_direction_stable`. -/
def is_direction_stable (b : Board) (r c dr dc : Int) (p : Player) : Bool :=
  dirStableLoop b p dr dc 8 (r + dr) (c + dc)

/-- `SuperOthelloAI._is_fully_stable`. -/
def is_fully_stable (b : Board) (r c : Int) (p : Player) : Bool :=
  DIRECTIONS.all fun d => is_direction_stable b r c d.1 d.2 p

/-- `SuperOthelloAI._is_edge_connected_to_corner`: the four `for … else`
clauses become `List.all` over the cells between the disc and each end of
its edge line. -/
def is_edge_connected_to_corner (b : Board) (r c : Int) (p : Player) : Bool :=
  (if r = 0 ∨ r = 7 then
    (List.range c.toNat).all (fun cc => bget b r (cc : Int) = some p) ||
    ((List.range 8).drop (c.toNat + 1)).all (fun cc => bget b r (cc : Int) = some p)
  else false) ||
  (if c = 0 ∨ c = 7 then
    (List.range r.toNat).all (fun rr => bget b (rr : Int) c = some p) ||
    ((List.range 8).drop (r.toNat + 1)).all (fun rr => bget b (rr : Int) c = some p)
  else false)

/-- `SuperOthelloAI._is_edge_fully_controlled`. -/
def is_edge_fully_controlled (b : Board) (sr sc dr dc : Int) (p : Player) : Bool :=
  (List.range 8).all fun i =>
    if bget b (sr + (i : Int) * dr) (sc + (i : Int) * dc) = none ∨
        bget b (sr + (i : Int) * dr) (sc + (i : Int) * dc) = some p then true
    else false

/-- `SuperOthelloAI._is_chain_stable`. -/
def is_chain_stable (b : Board) (r c : Int) (p : Player)
    (existing : Finset (Int × Int)) : Bool :=
  if DIRECTIONS.any (fun d => decide ((r + d.1, c + d.2) ∈ existing)) then true
  else if r = 0 ∨ r = 7 ∨ c = 0 ∨ c = 7 then is_edge_connected_to_corner b r c p
  else false

/-- The BFS of `_find_stable_chain`.  State: the queue (popped at the front,
pushed at the back), the visited set and the chain collected so far.  Every
pushed cell is simultaneously added to `visited`, so at most 64 cells are
ever pushed and the loop pops at most 65 times; budget 200 is never the
reason it stops. -/
def chainLoop (b : Board) (p : Player) (existing : Finset (Int × Int)) :
    Nat → List (Int × Int) → Finset (Int × Int) → Finset (Int × Int) →
      Finset (Int × Int)
  | 0, _, _, chain => chain
  | _ + 1, [], _, chain => chain
  | fuel + 1, rc :: queue, visited, chain =>
    let s := DIRECTIONS.foldl (fun acc d =>
      let nr := rc.1 + d.1
      let nc := rc.2 + d.2
      if inB nr nc ∧ (nr, nc) ∉ acc.2.1 ∧ bget b nr nc = some p ∧
          is_chain_stable b nr nc p existing = true then
        (acc.1 ++ [(nr, nc)], insert (nr, nc) acc.2.1, insert (nr, nc) acc.2.2)
      else acc) (queue, visited, chain)
    chainLoop b p existing fuel s.1 s.2.1 s.2.2

/-- `SuperOthelloAI._find_stable_chain` (the mutation of the caller's set
becomes returning the updated set). -/
def find_stable_chain (b : Board) (sr sc : Int) (p : Player)
    (stable : Finset (Int × Int)) : Finset (Int × Int) :=
  if (sr, sc) ∈ stable then stable
  else stable ∪ chainLoop b p stable 200 [(sr, sc)] {(sr, sc)} {(sr, sc)}

/-- `SuperOthelloAI._find_stable_edges`. -/
def find_stable_edges (b : Board) (p : Player) : Finset (Int × Int) :=
  let s1 := ([0, 7] : List Int).foldl (fun s row =>
    if is_edge_fully_controlled b row 0 0 1 p then
      (List.range 8).foldl (fun s2 cc =>
        if bget b row (cc : Int) = some p then insert (row, (cc : Int)) s2 else s2) s
    else s) (∅ : Finset (Int × Int))
  ([0, 7] : List Int).foldl (fun s col =>
    if is_edge_fully_controlled b 0 col 1 0 p then
      (List.range 8).foldl (fun s2 rr =>
        if bget b (rr : Int) col = some p then insert ((rr : Int), col) s2 else s2) s
    else s) s1

/-- The memo-free computation of `SuperOthelloAI._calculate_stability`:
corner chains, fully-controlled edges, then the per-disc 8-direction
check. -/
def calculate_stability (b : Board) (p : Player) : Nat :=
  let s1 := corner_positions.foldl (fun s rc =>
    if bget b rc.1 rc.2 = some p then find_stable_chain b rc.1 rc.2 p s else s)
    (∅ : Finset (Int × Int))
  let s2 := s1 ∪ find_stable_edges b p
  let s3 := (List.range 8).foldl (fun s r =>
    (List.range 8).foldl (fun s2 c =>
      if bget b (r : Int) (c : Int) = some p ∧ ((r : Int), (c : Int)) ∉ s2 ∧
          is_fully_stable b (r : Int) (c : Int) p = true then
        insert ((r : Int), (c : Int)) s2
      else s2) s) s2
  s3.card

/-- The stability memo (`self.stability_cache`), keyed like the source by
the full board contents and the side, kept in insertion order. -/
abbrev StabCache := List ((Board × Player) × Nat)

/-- Dictionary lookup in the memo. -/
def cacheLookup (cache : StabCache) (k : Board × Player) : Option Nat :=
  (cache.find? fun e => decide (e.1 = k)).map fun e => e.2

/-- `SuperOthelloAI._calculate_stability` with its memo: hit returns the
stored value; miss computes, stores, and drops the oldest 500 entries once
the memo exceeds 1000 entries. -/
def calculate_stability_cached (cache : StabCache) (b : Board) (p : Player) :
    Nat × StabCache :=
  match cacheLookup cache (b, p) with
  | some v => (v, cache)
  | none =>
    let result := calculate_stability b p
    let cache2 := cache ++ [((b, p), result)]
    (result, if 1000 < cache2.length then cache2.drop 500 else cache2)


/-! ## Evaluation (`evaluate_position` and `_get_strategy_transition_point`)

The Python floats (`0.5`, `0.8`, `1.2`, `0.6`, `0.25`, `0.15`, `0.35`,
`0.45`, `-0.5`, `2.5`) are modelled as the exact rationals they denote. -/

/-- `SuperOthelloAI._get_strategy_transition_point`.  The `phase` parameter
is accepted and ignored exactly as in the source; the two mobilities are
always WHITE's (treated as the AI) and BLACK's (treated as the opponent),
whichever side the evaluator is scoring for. -/
def get_strategy_transition_point (b : Board) (phase : Phase) (empty_count : Nat) : ℚ :=
  let game_progress : ℚ := ((64 - (empty_count : Int) : Int) : ℚ) / 64
  let my_moves := (get_valid_moves b .white).length
  let opp_moves := (get_valid_moves b .black).length
  let mobility_factor : ℚ :=
    if 0 < opp_moves + my_moves then (opp_moves : ℚ) / ((opp_moves : ℚ) + (my_moves : ℚ))
    else 0
  let corners_owned : Nat := corner_positions.foldl (fun n rc =>
    if bget b rc.1 rc.2 = some Player.white then n + 1 else n) 0
  let corner_factor : ℚ := (corners_owned : ℚ) / 4
  min 1 (game_progress * (3/5) + (1 - mobility_factor) * (1/4) + corner_factor * (3/20))

/-- The non-terminal part of `evaluate_position`, parameterised over the two
stability counts (which the source obtains through the memo); the debug
`print` calls of the source have no effect on the value and are dropped. -/
def evaluateHeuristic (b : Board) (p : Player)
    (my_stability opp_stability : Nat) : ℚ :=
  let opponent := p.opp
  let phase := get_game_phase b
  let empty_count := emptyCount b
  -- 1. corner control
  let corner_score : Int := corner_positions.foldl (fun s rc =>
    if bget b rc.1 rc.2 = some p then s + 1000
    else if bget b rc.1 rc.2 = some opponent then s - 1000
    else s) 0
  -- 2. X-square penalty (only while the adjacent corner is still empty)
  let x_score : Int := x_squares.foldl (fun s rc =>
    let corner_r : Int := if rc.1 = 1 then 0 else 7
    let corner_c : Int := if rc.2 = 1 then 0 else 7
    if bget b rc.1 rc.2 = some p then
      if bget b corner_r corner_c = none then s - 500 else s
    else if bget b rc.1 rc.2 = some opponent then
      if bget b corner_r corner_c = none then s + 500 else s
    else s) 0
  -- 3. C-square penalty
  let c_score : Int := c_squares.foldl (fun s rc =>
    if bget b rc.1 rc.2 = some p then s - 200
    else if bget b rc.1 rc.2 = some opponent then s + 200
    else s) 0
  -- 4. mobility
  let my_moves := get_valid_moves b p
  let opp_moves := get_valid_moves b opponent
  let mobility_diff : Int := (my_moves.length : Int) - (opp_moves.length : Int)
  let weighted_mobility : Int :=
    (my_moves.foldl (fun w m =>
      if (m.row, m.col) ∈ corner_positions then w + 50
      else if is_edge_stable b m.row m.col p then w + 20
      else if (m.row, m.col) ∈ x_squares then w - 30
      else w + 5) 0) +
    (opp_moves.foldl (fun w m =>
      if (m.row, m.col) ∈ corner_positions then w - 50
      else if is_edge_stable b m.row m.col opponent then w - 20
      else if (m.row, m.col) ∈ x_squares then w + 30
      else w - 5) 0)
  let mobility_score : ℚ :=
    match phase with
    | .opening => (mobility_diff : ℚ) * 50 + (weighted_mobility : ℚ) * (1/2)
    | .midgame => (mobility_diff : ℚ) * 25 + (weighted_mobility : ℚ) * (4/5)
    | .endgame => (mobility_diff : ℚ) * 10 + (weighted_mobility : ℚ) * (6/5)
  -- 5. stability
  let stability_diff : Int := (my_stability : Int) - (opp_stability : Int)
  let stability_weight : Int :=
    match phase with
    | .opening => 50
    | .midgame => 80
    | .endgame => 120
  -- 6. positional weight table
  let pos_score : Int := (List.range 8).foldl (fun (s : Int) (r : Nat) =>
    (List.range 8).foldl (fun (s2 : Int) (c : Nat) =>
      if bget b (r : Int) (c : Int) = some p then s2 + position_weights r c
      else if bget b (r : Int) (c : Int) = some opponent then s2 - position_weights r c
      else s2) s) 0
  -- 7. disc-count differential with the strategy transition point
  let my_count : Int := (count_discs b p : Int)
  let opp_count : Int := (count_discs b opponent : Int)
  let disc_diff : Int := my_count - opp_count
  let transition_point := get_strategy_transition_point b phase empty_count
  let disc_term : ℚ :=
    match phase with
    | .opening =>
      if p = Player.black then
        if disc_diff < -6 then (disc_diff : ℚ) * 4
        else if transition_point < 3/10 then (disc_diff : ℚ) * 1
        else (disc_diff : ℚ) * 2
      else
        if disc_diff < -10 then (disc_diff : ℚ) * 2
        else if transition_point < 2/5 then (disc_diff : ℚ) * (-2)
        else (disc_diff : ℚ) * 0
    | .midgame =>
      if p = Player.black then
        if transition_point < 2/5 then (disc_diff : ℚ) * 1
        else (disc_diff : ℚ) * 4
      else
        if transition_point < 3/5 then (disc_diff : ℚ) * (-1/2)
        else (disc_diff : ℚ) * (5/2)
    | .endgame =>
      if 4/5 < transition_point then (disc_diff : ℚ) * 150
      else (disc_diff : ℚ) * 100
  -- 8. occupation rate
  let total_discs : Int := my_count + opp_count
  let occupation_term : ℚ :=
    if 0 < total_discs then
      let occupation_rate : ℚ := (my_count : ℚ) / (total_discs : ℚ)
      match phase with
      | .opening => |occupation_rate - 7/20| * (-80)
      | .midgame => |occupation_rate - 9/20| * (-40)
      | .endgame => max 0 (occupation_rate - 1/2) * 120
    else 0
  (corner_score : ℚ) + (x_score : ℚ) + (c_score : ℚ) + mobility_score +
    ((stability_diff * stability_weight : Int) : ℚ) + (pos_score : ℚ) +
    disc_term + occupation_term

/-- The terminal branch of `evaluate_position`. -/
def terminalScore (b : Board) (p : Player) : ℚ :=
  match get_winner b with
  | some w => if w = p then 10000 else -10000
  | none => 0

/-- `SuperOthelloAI.evaluate_position`, with the stability counts computed
directly (the memo is modelled separately by
`evaluate_position_cached`). -/
def evaluate_position (b : Board) (p : Player) : ℚ :=
  if is_game_over b then terminalScore b p
  else evaluateHeuristic b p (calculate_stability b p) (calculate_stability b p.opp)

/-- `evaluate_position` with the stability memo threaded through the two
`_calculate_stability` calls, as in the source. -/
def evaluate_position_cached (cache : StabCache) (b : Board) (p : Player) :
    ℚ × StabCache :=
  if is_game_over b then (terminalScore b p, cache)
  else
    let ms := calculate_stability_cached cache b p
    let os := calculate_stability_cached ms.2 b p.opp
    (evaluateHeuristic b p ms.1 os.1, os.2)


/-! ## Search -/

/-- The score type of the search: evaluator values extended with the
`float('-inf')` and `float('inf')` sentinels of the source. -/
abbrev Score := WithBot (WithTop ℚ)

/-- A finite evaluator value as a search score. -/
def qs (q : ℚ) : Score := ((q : WithTop ℚ) : Score)

/-- The move loop of the maximizing branch of `_minimax`: running
`max_eval` and `alpha`, with the `beta <= alpha` break after each child. -/
def abMaxLoop (child : Board → Score → Score) (cur : Player) (b : Board) :
    List Move → Score → Score → Score → Score
  | [], maxEval, _, _ => maxEval
  | m :: rest, maxEval, alpha, beta =>
    let ev := child (make_move b m.row m.col cur).2 alpha
    let maxEval2 := max maxEval ev
    let alpha2 := max alpha ev
    if beta ≤ alpha2 then maxEval2
    else abMaxLoop child cur b rest maxEval2 alpha2 beta

/-- The move loop of the minimizing branch of `_minimax`. -/
def abMinLoop (child : Board → Score → Score) (cur : Player) (b : Board) :
    List Move → Score → Score → Score → Score
  | [], minEval, _, _ => minEval
  | m :: rest, minEval, beta, alpha =>
    let ev := child (make_move b m.row m.col cur).2 beta
    let minEval2 := min minEval ev
    let beta2 := min beta ev
    if beta2 ≤ alpha then minEval2
    else abMinLoop child cur b rest minEval2 beta2 alpha

/-- `SuperOthelloAI._minimax` (depth-limited alpha-beta).  Every recursive
call, including the pass when the side to move has no legal moves,
decreases the depth by one. -/
def minimax : Board → Nat → Score → Score → Bool → Player → Score
  | b, 0, _, _, _, original_player => qs (evaluate_position b original_player)
  | b, depth + 1, alpha, beta, is_maximizing, original_player =>
    if is_game_over b then qs (evaluate_position b original_player)
    else
      let current_player := if is_maximizing then original_player else original_player.opp
      let moves := get_valid_moves b current_player
      if moves = [] then
        minimax b depth alpha beta (!is_maximizing) original_player
      else if is_maximizing then
        abMaxLoop (fun b2 a => minimax b2 depth a beta false original_player)
          current_player b moves ⊥ alpha beta
      else
        abMinLoop (fun b2 bt => minimax b2 depth alpha bt true original_player)
          current_player b moves ⊤ beta alpha
termination_by b depth _ _ _ _ => depth

/-- The un-pruned depth-limited minimax recurrence that the specification
ascribes to `_minimax` (for claim C4); this definition follows the spec
text: depth 0 or a terminal board yields the evaluator score for the
original mover, a ply whose side to move has no legal moves decrements the
depth and flips the maximizing flag, a maximizing ply takes the maximum of
the children's values and a minimizing ply the minimum. -/
def minimaxSpec : Board → Nat → Bool → Player → Score
  | b, 0, _, original_player => qs (evaluate_position b original_player)
  | b, depth + 1, is_maximizing, original_player =>
    if is_game_over b then qs (evaluate_position b original_player)
    else
      let current_player := if is_maximizing then original_player else original_player.opp
      let moves := get_valid_moves b current_player
      if moves = [] then minimaxSpec b depth (!is_maximizing) original_player
      else if is_maximizing then
        moves.foldl (fun acc m =>
          max acc (minimaxSpec (make_move b m.row m.col current_player).2 depth
            false original_player)) ⊥
      else
        moves.foldl (fun acc m =>
          min acc (minimaxSpec (make_move b m.row m.col current_player).2 depth
            true original_player)) ⊤
termination_by b depth _ _ => depth

/-- `SuperOthelloAI._perfect_minimax`: exact search to the end of the game.
The `float('-inf')`/`float('inf')` seeds of the two branches become
`WithBot`/`WithTop` folds; the move list of the branch in use is nonempty,
so the `unbot'`/`untop'` defaults are never consulted.  Terminates because
a ply with moves fills an empty cell and a ply without moves passes to the
opponent, who (the game not being over) has one. -/
def perfectMinimaxRec (b : Board) (original_player current_player : Player) : Int :=
  if hgo : is_game_over b = true then
    (count_discs b original_player : Int) - (count_discs b original_player.opp : Int)
  else
    if hm : get_valid_moves b current_player = [] then
      perfectMinimaxRec b original_player current_player.opp
    else
      if current_player = original_player then
        (((get_valid_moves b current_player).attach.map fun m =>
          ((perfectMinimaxRec (make_move b m.1.row m.1.col current_player).2
            original_player current_player.opp : Int) : WithBot Int)).foldl max
          (⊥ : WithBot Int)).unbot' 0
      else
        (((get_valid_moves b current_player).attach.map fun m =>
          ((perfectMinimaxRec (make_move b m.1.row m.1.col current_player).2
            original_player current_player.opp : Int) : WithTop Int)).foldl min
          (⊤ : WithTop Int)).untop' 0
termination_by 2 * emptyCount b + (if get_valid_moves b current_player = [] then 1 else 0)
decreasing_by
  · simp_wf
    rw [if_pos hm, if_neg (no_moves_opp (Bool.eq_false_iff.mpr hgo) hm)]
    omega
  · simp_wf
    rw [if_neg hm]
    have he := emptyCount_make_move (valid_of_mem_moves m.2)
    split <;> omega
  · simp_wf
    rw [if_neg hm]
    have he := emptyCount_make_move (valid_of_mem_moves m.2)
    split <;> omega

/-- The same recursion with an explicit step budget, so that the kernel can
evaluate it (the well-founded `perfectMinimaxRec` does not reduce
definitionally).  `perfectMinimaxRec_eq_pmLoop` shows any budget of at
least `2 * emptyCount + 2` steps gives the same value, and a game of
othello never has more than 64 empty cells. -/
def pmLoop : Nat → Board → Player → Player → Int
  | 0, _, _, _ => 0
  | fuel + 1, b, original_player, current_player =>
    if is_game_over b then
      (count_discs b original_player : Int) - (count_discs b original_player.opp : Int)
    else
      if get_valid_moves b current_player = [] then
        pmLoop fuel b original_player current_player.opp
      else if current_player = original_player then
        (((get_valid_moves b current_player).map fun m =>
          ((pmLoop fuel (make_move b m.row m.col current_player).2
            original_player current_player.opp : Int) : WithBot Int)).foldl max
          (⊥ : WithBot Int)).unbot' 0
      else
        (((get_valid_moves b current_player).map fun m =>
          ((pmLoop fuel (make_move b m.row m.col current_player).2
            original_player current_player.opp : Int) : WithTop Int)).foldl min
          (⊤ : WithTop Int)).untop' 0

/-- No board has more than 64 empty cells. -/
theorem emptyCount_le (b : Board) : emptyCount b ≤ 64 := by
  have h := Finset.card_filter_le (Finset.univ : Finset (Fin 8 × Fin 8))
    (fun rc => bget b (rc.1 : Int) (rc.2 : Int) = none)
  simpa using h

theorem perfectMinimaxRec_eq_pmLoop :
    ∀ (fuel : Nat) (b : Board) (o c : Player),
      2 * emptyCount b + (if get_valid_moves b c = [] then 1 else 0) + 1 ≤ fuel →
      perfectMinimaxRec b o c = pmLoop fuel b o c := by
  intro fuel
  induction fuel with
  | zero =>
    intro b o c h
    omega
  | succ fuel ih =>
    intro b o c h
    rw [perfectMinimaxRec, pmLoop]
    by_cases hgo : is_game_over b = true
    · rw [dif_pos hgo, if_pos hgo]
    · rw [dif_neg hgo, if_neg (Bool.eq_false_iff.mpr hgo ▸ (by simp) :
        ¬ is_game_over b = true)]
      by_cases hm : get_valid_moves b c = []
      · rw [dif_pos hm, if_pos hm]
        apply ih
        have hne := no_moves_opp (Bool.eq_false_iff.mpr hgo) hm
        rw [if_neg hne]
        rw [if_pos hm] at h
        omega
      · rw [dif_neg hm, if_neg hm]
        rw [if_neg hm] at h
        have hchild : ∀ m ∈ get_valid_moves b c,
            perfectMinimaxRec (make_move b m.row m.col c).2 o c.opp =
              pmLoop fuel (make_move b m.row m.col c).2 o c.opp := by
          intro m hmem
          apply ih
          have he := emptyCount_make_move (valid_of_mem_moves hmem)
          split <;> omega
        by_cases hco : c = o
        · rw [if_pos hco, if_pos hco]
          congr 1
          rw [← List.attach_map_coe (get_valid_moves b c) (fun m =>
            ((pmLoop fuel (make_move b m.row m.col c).2 o c.opp : Int) : WithBot Int))]
          congr 1
          exact List.map_congr_left fun m hmem => by rw [hchild m.1 m.2]
        · rw [if_neg hco, if_neg hco]
          congr 1
          rw [← List.attach_map_coe (get_valid_moves b c) (fun m =>
            ((pmLoop fuel (make_move b m.row m.col c).2 o c.opp : Int) : WithTop Int))]
          congr 1
          exact List.map_congr_left fun m hmem => by rw [hchild m.1 m.2]

/-- `SuperOthelloAI._perfect_minimax`, in the executable form (see
`perfectMinimaxRec_eq_pmLoop`; `2 * 64 + 2 ≤ 130`). -/
def perfect_minimax (b : Board) (original_player current_player : Player) : Int :=
  pmLoop 130 b original_player current_player

/-- The executable form agrees with the direct recursion everywhere. -/
theorem perfect_minimax_eq_rec (b : Board) (o c : Player) :
    perfect_minimax b o c = perfectMinimaxRec b o c := by
  rw [perfect_minimax]
  refine (perfectMinimaxRec_eq_pmLoop 130 b o c ?__).symm
  have := emptyCount_le b
  split <;> omega

/-- `SuperOthelloAI._endgame_solver`: running best move and best score
(`None`, `-inf`); a candidate replaces the best exactly when its full-depth
score is strictly greater. -/
def endgame_solver (b : Board) (p : Player) : Option Move :=
  ((get_valid_moves b p).foldl (fun best m =>
    let final_score := perfect_minimax (make_move b m.row m.col p).2 p p
    if best.2 < ((final_score : Int) : WithBot Int) then
      (some (⟨m.row, m.col, qs (final_score : ℚ)⟩ : Move),
        ((final_score : Int) : WithBot Int))
    else best) ((none : Option Move), (⊥ : WithBot Int))).1

/-- The priority of `_sort_moves`. -/
def move_priority (b : Board) (p : Player) (m : Move) : Int :=
  if (m.row, m.col) ∈ corner_positions then 10000
  else if is_edge_stable b m.row m.col p then 100
  else if (m.row, m.col) ∈ x_squares then -500
  else if (m.row, m.col) ∈ c_squares then -100
  else position_weights m.row.toNat m.col.toNat

/-- Stable insertion into a descending-priority list: an element passes the
strictly larger heads and stops in front of the first element whose
priority is not larger, which is where Python's stable
`sorted(..., reverse=True)` places an earlier element. -/
def insertDesc (key : Move → Int) (m : Move) : List Move → List Move
  | [] => [m]
  | x :: xs => if key m < key x then x :: insertDesc key m xs else m :: x :: xs

/-- `SuperOthelloAI._sort_moves`. -/
def sort_moves (b : Board) (moves : List Move) (p : Player) : List Move :=
  moves.foldr (insertDesc (move_priority b p)) []

/-- `self.opening_moves`: placed-disc count → preferred coordinates. -/
def opening_moves : Nat → List (Int × Int)
  | 4 => [(2, 3), (3, 2), (4, 5), (5, 4)]
  | 5 => [(2, 4), (4, 2), (3, 5), (5, 3)]
  | 6 => [(2, 5), (5, 2), (2, 2), (5, 5)]
  | 7 => [(1, 3), (3, 1), (6, 4), (4, 6)]
  | 8 => [(1, 4), (4, 1), (6, 3), (3, 6)]
  | 9 => [(1, 5), (5, 1), (6, 2), (2, 6)]
  | 10 => [(0, 3), (3, 0), (7, 4), (4, 7)]
  | 11 => [(0, 4), (4, 0), (7, 3), (3, 7)]
  | 12 => [(0, 5), (5, 0), (7, 2), (2, 7)]
  | _ => []

/-- The opening-book scan of `get_best_move`: the first listed coordinate
that is currently legal, with the fixed score 999. -/
def book_move (b : Board) (p : Player) (move_count : Nat) : Option Move :=
  (opening_moves move_count).findSome? fun rc =>
    if is_valid_move b rc.1 rc.2 p then some (⟨rc.1, rc.2, qs 999⟩ : Move) else none

/-- The alpha-beta move loop of `get_best_move`: each candidate is searched
with the full window and the opponent to move; the best move and score are
replaced exactly when the new score is strictly greater. -/
def gbmLoop (b : Board) (p : Player) (search_depth : Nat) (moves : List Move) :
    Option Move :=
  (moves.foldl (fun best m =>
    let score := minimax (make_move b m.row m.col p).2 (search_depth - 1) ⊥ ⊤ false p
    if best.2 < score then (some (⟨m.row, m.col, score⟩ : Move), score) else best)
    ((none : Option Move), (⊥ : Score))).1

/-- `SuperOthelloAI.get_best_move` (the debug printing of the source has no
effect on the returned move and is dropped). -/
def get_best_move (b : Board) (p : Player) : Option Move :=
  let moves := get_valid_moves b p
  if moves = [] then none
  else
    let game_phase := get_game_phase b
    let search_depth := depth_config game_phase
    let empty_count := emptyCount b
    if empty_count ≤ 6 then endgame_solver b p
    else
      let search_depth2 := if empty_count ≤ 10 then min 8 (empty_count + 2) else search_depth
      let move_count := 64 - empty_count
      match book_move b p move_count with
      | some m => some m
      | none => gbmLoop b p search_depth2 (sort_moves b moves p)


/-! ## Claim C3: the endgame solver -/

/-- The failing input for claim C3: rows 1–7 hold black discs and row 0 is
`B _ B W B _ _ _` (4 empty cells).  WHITE to move has exactly the two legal
moves (0,1) and (0,5). -/
def C3board : Board :=
  ofRows ([[some Player.black, none, some Player.black, some Player.white,
    some Player.black, none, none, none]] ++
    List.replicate 7 (List.replicate 8 (some Player.black)))

/-- **C3** (code bug): with at most 6 empty cells `get_best_move` does
dispatch to `_endgame_solver`, but the solver scores every candidate with
`_perfect_minimax(test_board, player, player)` — the mover is also the side
to move at the very next ply — instead of handing the turn to the opponent.
On `C3board` it therefore returns (0, 1), whose disc differential under
optimal alternating play (the opponent moving next, computed by the same
`_perfect_minimax` recursion started with the opponent to move) is −63,
even though the alternative legal move (0, 5) achieves −62; the returned
move does not maximise the final differential that the claim (and the
solver's own docstring) promises. -/
theorem claim_C3_endgame_solver_not_optimal :
    emptyCount C3board ≤ 6 ∧
    get_valid_moves C3board Player.white ≠ [] ∧
    get_best_move C3board Player.white = endgame_solver C3board Player.white ∧
    (endgame_solver C3board Player.white).map (fun m => (m.row, m.col)) =
      some (0, 1) ∧
    is_valid_move C3board 0 5 Player.white = true ∧
    perfect_minimax (make_move C3board 0 1 Player.white).2
      Player.white Player.black = -63 ∧
    perfect_minimax (make_move C3board 0 5 Player.white).2
      Player.white Player.black = -62 := by
  refine ⟨by decide, by decide, by decide, by decide, by decide, by decide, by decide⟩


/-! ## Claim C10: the strategy transition point -/

/-- **C10**: the strategy transition point that the evaluator's
disc-differential term uses (`evaluateHeuristic` binds
`get_strategy_transition_point b phase (emptyCount b)`, with no reference
to the side being scored: the mobilities inside are always WHITE's and
BLACK's move counts and only WHITE corners are counted) is a function of
the board alone — the `phase` argument is ignored — and always lies in
`[0, 1]` at the actual empty-cell count of the board. -/
theorem claim_C10_transition_point (b : Board) (ph ph2 : Phase) :
    get_strategy_transition_point b ph (emptyCount b) =
      get_strategy_transition_point b ph2 (emptyCount b) ∧
    0 ≤ get_strategy_transition_point b ph (emptyCount b) ∧
    get_strategy_transition_point b ph (emptyCount b) ≤ 1 := by
  refine ⟨rfl, ?_, ?_⟩
  · simp only [get_strategy_transition_point]
    apply le_min (by norm_num)
    have he := emptyCount_le b
    have hgp : (0 : ℚ) ≤ ((64 - (emptyCount b : Int) : Int) : ℚ) / 64 := by
      apply div_nonneg _ (by norm_num)
      have h0 : (0 : Int) ≤ 64 - (emptyCount b : Int) := by omega
      exact_mod_cast h0
    have hmf : (0 : ℚ) ≤ 1 -
        (if 0 < (get_valid_moves b Player.black).length +
            (get_valid_moves b Player.white).length then
          ((get_valid_moves b Player.black).length : ℚ) /
            (((get_valid_moves b Player.black).length : ℚ) +
              ((get_valid_moves b Player.white).length : ℚ))
        else 0) := by
      split
      · rename_i hpos
        rw [sub_nonneg]
        apply div_le_one_of_le
        · have : (0 : ℚ) ≤ ((get_valid_moves b Player.white).length : ℚ) := by positivity
          linarith
        · positivity
      · norm_num
    have hcf : (0 : ℚ) ≤ ((corner_positions.foldl (fun n rc =>
        if bget b rc.1 rc.2 = some Player.white then n + 1 else n) 0 : Nat) : ℚ) / 4 := by
      positivity
    exact add_nonneg (add_nonneg (mul_nonneg hgp (by norm_num))
      (mul_nonneg hmf (by norm_num))) (mul_nonneg hcf (by norm_num))
  · simp only [get_strategy_transition_point]
    exact min_le_left _ _

/-! ## Claim C9: the evaluator's type and terminal behaviour

Concrete evaluator values are established by kernel computation; the
arithmetic of `Rat` is restored to its definitional behaviour for that
purpose (the kernel itself always unfolds these definitions). -/

set_option allowUnsafeReducibility true
attribute [semireducible] Rat.add Rat.mul Rat.sub Rat.neg Rat.div Rat.inv
attribute [semireducible] Rat.normalize Rat.blt mkRat Rat.divInt


/-- A reachable counterexample board for C9's "returns a signed integer":
from the initial position play BLACK (2,3), WHITE (2,4), BLACK (3,5). -/
def C9board : Board :=
  (make_move (make_move (make_move initialBoard 2 3 .black).2 2 4 .white).2
    3 5 .black).2

/-- Counterexample to **C9** as stated: on the (non-terminal, reachable)
board `C9board` the evaluator's value for BLACK is `2316 / 7`, which is not
an integer — the mobility and occupation-rate terms carry the fractional
weights of the source, so `evaluate_position` is not integer-valued.  (In
the source's float arithmetic the same position evaluates to a non-integer
float near 330.86.) -/
theorem claim_C9_not_integer :
    is_game_over C9board = false ∧
    evaluate_position C9board Player.black = 2316 / 7 ∧
    (evaluate_position C9board Player.black).den = 7 := by
  refine ⟨by decide, by decide, by decide⟩

/-- **C9** (amended): `evaluate_position` returns a signed rational score
(not in general an integer), and whenever the board is game-over it
returns, before and without any heuristic term, exactly 10000 if `side`
is the winner, −10000 if the opponent is, and 0 on a draw. -/
theorem claim_C9_terminal_score (b : Board) (p : Player)
    (h : is_game_over b = true) :
    evaluate_position b p =
      if get_winner b = some p then 10000
      else if get_winner b = none then 0
      else -10000 := by
  rw [evaluate_position, if_pos h, terminalScore]
  rcases hw : get_winner b with - | w
  · simp
  · by_cases hwp : w = p
    · subst hwp
      simp
    · simp [hwp]

/-- Witness for the amended C9: the all-black board is terminal, BLACK is
the winner and the evaluator returns 10000 for BLACK and −10000 for
WHITE. -/
theorem claim_C9_terminal_score_witness :
    is_game_over (ofRows (List.replicate 8 (List.replicate 8
      (some Player.black)))) = true ∧
    evaluate_position (ofRows (List.replicate 8 (List.replicate 8
      (some Player.black)))) Player.black = 10000 ∧
    evaluate_position (ofRows (List.replicate 8 (List.replicate 8
      (some Player.black)))) Player.white = -10000 := by
  refine ⟨by decide, ?_, ?_⟩
  · rw [claim_C9_terminal_score _ _ (by decide)]
    decide
  · rw [claim_C9_terminal_score _ _ (by decide)]
    decide


/-! ## Claim C6: `get_best_move` and forced passes -/

/-- The all-black board (WHITE has no discs and no legal moves). -/
def allBlackBoard : Board :=
  ofRows (List.replicate 8 (List.replicate 8 (some Player.black)))

theorem abMaxLoop_ne_bot (child : Board → Score → Score) (cur : Player) (b : Board)
    (hchild : ∀ b2 a, child b2 a ≠ ⊥) :
    ∀ (l : List Move) (me alpha beta : Score), (me ≠ ⊥ ∨ l ≠ []) →
      abMaxLoop child cur b l me alpha beta ≠ ⊥ := by
  intro l
  induction l with
  | nil =>
    intro me alpha beta h
    simp only [abMaxLoop]
    exact h.resolve_right (fun hc => hc rfl)
  | cons m rest ih =>
    intro me alpha beta h
    simp only [abMaxLoop]
    have hev := hchild (make_move b m.row m.col cur).2 alpha
    split
    · intro hcon
      exact hev (max_eq_bot.mp hcon).2
    · exact ih _ _ _ (Or.inl fun hcon => hev (max_eq_bot.mp hcon).2)

theorem abMinLoop_ne_bot (child : Board → Score → Score) (cur : Player) (b : Board)
    (hchild : ∀ b2 a, child b2 a ≠ ⊥) :
    ∀ (l : List Move) (me beta alpha : Score), me ≠ ⊥ →
      abMinLoop child cur b l me beta alpha ≠ ⊥ := by
  intro l
  induction l with
  | nil =>
    intro me beta alpha h
    simp only [abMinLoop]
    exact h
  | cons m rest ih =>
    intro me beta alpha h
    simp only [abMinLoop]
    have hev := hchild (make_move b m.row m.col cur).2 beta
    have hmin : min me (child (make_move b m.row m.col cur).2 beta) ≠ ⊥ := by
      intro hcon
      rcases min_eq_bot.mp hcon with hc | hc
      · exact h hc
      · exact hev hc
    split
    · exact hmin
    · exact ih _ _ _ hmin

/-- The alpha-beta search never produces the `-inf` sentinel: every leaf is
an evaluator value. -/
theorem minimax_ne_bot :
    ∀ (depth : Nat) (b : Board) (alpha beta : Score) (mx : Bool) (orig : Player),
      minimax b depth alpha beta mx orig ≠ ⊥ := by
  intro depth
  induction depth with
  | zero =>
    intro b alpha beta mx orig
    rw [minimax]
    exact WithBot.coe_ne_bot
  | succ depth ih =>
    intro b alpha beta mx orig
    rw [minimax]
    split
    · exact WithBot.coe_ne_bot
    · by_cases hm : get_valid_moves b (if mx = true then orig else orig.opp) = []
      · rw [if_pos hm]
        exact ih b alpha beta (!mx) orig
      · rw [if_neg hm]
        split
        · rename_i hmx
          rw [if_pos hmx] at hm
          exact abMaxLoop_ne_bot _ _ _ (fun b2 a => ih b2 a beta false orig) _ _ _ _
            (Or.inr hm)
        · exact abMinLoop_ne_bot _ _ _ (fun b2 a => ih b2 alpha a true orig) _ _ _ _
            WithBot.coe_ne_bot

theorem mem_insertDesc {key : Move → Int} {m x : Move} :
    ∀ {l : List Move}, x ∈ insertDesc key m l ↔ x = m ∨ x ∈ l := by
  intro l
  induction l with
  | nil => simp [insertDesc]
  | cons y ys ih =>
    simp only [insertDesc]
    split
    · simp only [List.mem_cons, ih]
      tauto
    · simp only [List.mem_cons]

theorem mem_sort_moves {b : Board} {p : Player} {moves : List Move} {x : Move} :
    x ∈ sort_moves b moves p ↔ x ∈ moves := by
  rw [sort_moves]
  induction moves with
  | nil => simp
  | cons y ys ih =>
    simp only [List.foldr_cons, mem_insertDesc, List.mem_cons, ih]

theorem sort_moves_ne_nil {b : Board} {p : Player} {moves : List Move}
    (h : moves ≠ []) : sort_moves b moves p ≠ [] := by
  rcases moves with - | ⟨y, ys⟩
  · exact absurd rfl h
  · intro hc
    have : y ∈ sort_moves b (y :: ys) p := mem_sort_moves.mpr (List.mem_cons_self _ _)
    rw [hc] at this
    cases this

theorem book_move_valid {b : Board} {p : Player} {mc : Nat} {m : Move}
    (h : book_move b p mc = some m) : is_valid_move b m.row m.col p = true := by
  rw [book_move] at h
  obtain ⟨rc, hrc, hf⟩ := List.exists_of_findSome?_eq_some h
  by_cases hv : is_valid_move b rc.1 rc.2 p = true
  · rw [if_pos hv] at hf
    injection hf with hf
    rw [← hf]
    exact hv
  · rw [if_neg hv] at hf
    cases hf


theorem solverFold_coords (b : Board) (p : Player) :
    ∀ (l : List Move) (acc : Option Move × WithBot Int) (m : Move),
      (l.foldl (fun best m2 =>
        let final_score := perfect_minimax (make_move b m2.row m2.col p).2 p p
        if best.2 < ((final_score : Int) : WithBot Int) then
          (some (⟨m2.row, m2.col, qs (final_score : ℚ)⟩ : Move),
            ((final_score : Int) : WithBot Int))
        else best) acc).1 = some m →
      acc.1 = some m ∨ ∃ m0 ∈ l, m.row = m0.row ∧ m.col = m0.col := by
  intro l
  induction l with
  | nil =>
    intro acc m h
    exact Or.inl h
  | cons x xs ih =>
    intro acc m h
    rw [List.foldl_cons] at h
    rcases ih _ m h with hacc | ⟨m0, hm0, hco⟩
    · have hacc2 : ((if acc.2 <
          ((perfect_minimax (make_move b x.row x.col p).2 p p : Int) : WithBot Int) then
          ((some (⟨x.row, x.col,
            qs ((perfect_minimax (make_move b x.row x.col p).2 p p : Int) : ℚ)⟩ : Move)),
            ((perfect_minimax (make_move b x.row x.col p).2 p p : Int) : WithBot Int))
        else acc) : Option Move × WithBot Int).1 = some m := hacc
      by_cases hlt : acc.2 <
          ((perfect_minimax (make_move b x.row x.col p).2 p p : Int) : WithBot Int)
      · rw [if_pos hlt] at hacc2
        have hmx := Option.some.inj hacc2
        exact Or.inr ⟨x, List.mem_cons_self x xs, by rw [← hmx], by rw [← hmx]⟩
      · rw [if_neg hlt] at hacc2
        exact Or.inl hacc2
    · exact Or.inr ⟨m0, List.mem_cons_of_mem x hm0, hco⟩

theorem solverFold_some (b : Board) (p : Player) :
    ∀ (l : List Move) (acc : Option Move × WithBot Int),
      (acc.1 = none → acc.2 = ⊥) → (l ≠ [] ∨ acc.1 ≠ none) →
      (l.foldl (fun best m2 =>
        let final_score := perfect_minimax (make_move b m2.row m2.col p).2 p p
        if best.2 < ((final_score : Int) : WithBot Int) then
          (some (⟨m2.row, m2.col, qs (final_score : ℚ)⟩ : Move),
            ((final_score : Int) : WithBot Int))
        else best) acc).1 ≠ none := by
  intro l
  induction l with
  | nil =>
    intro acc hinv h
    rcases h with h | h
    · exact absurd rfl h
    · exact h
  | cons x xs ih =>
    intro acc hinv h
    rw [List.foldl_cons]
    have hstep : ((if acc.2 <
        ((perfect_minimax (make_move b x.row x.col p).2 p p : Int) : WithBot Int) then
        ((some (⟨x.row, x.col,
          qs ((perfect_minimax (make_move b x.row x.col p).2 p p : Int) : ℚ)⟩ : Move)),
          ((perfect_minimax (make_move b x.row x.col p).2 p p : Int) : WithBot Int))
      else acc) : Option Move × WithBot Int).1 ≠ none := by
      by_cases hlt : acc.2 <
          ((perfect_minimax (make_move b x.row x.col p).2 p p : Int) : WithBot Int)
      · rw [if_pos hlt]
        exact Option.some_ne_none _
      · rw [if_neg hlt]
        intro hc
        rw [hinv hc] at hlt
        exact hlt (WithBot.bot_lt_coe _)
    exact ih _ (fun hc => absurd hc hstep) (Or.inr hstep)

/-- When the side to move has legal moves, `_endgame_solver` returns one of
them (possibly not the optimal one, see C3; but always a legal one). -/
theorem endgame_solver_valid {b : Board} {p : Player}
    (hm : get_valid_moves b p ≠ []) :
    ∃ m, endgame_solver b p = some m ∧ is_valid_move b m.row m.col p = true := by
  have hsome := solverFold_some b p (get_valid_moves b p) (none, ⊥)
    (fun _ => rfl) (Or.inl hm)
  rcases hval : endgame_solver b p with - | m
  · exact absurd hval hsome
  · refine ⟨m, rfl, ?_⟩
    rcases solverFold_coords b p (get_valid_moves b p) (none, ⊥) m hval with
      hnone | ⟨m0, hm0, hr, hc⟩
    · exact Option.noConfusion hnone
    · rw [hr, hc]
      exact valid_of_mem_moves hm0

theorem gbmFold_coords (b : Board) (p : Player) (sd : Nat) :
    ∀ (l : List Move) (acc : Option Move × Score) (m : Move),
      (l.foldl (fun best m2 =>
        let score := minimax (make_move b m2.row m2.col p).2 (sd - 1) ⊥ ⊤ false p
        if best.2 < score then (some (⟨m2.row, m2.col, score⟩ : Move), score)
        else best) acc).1 = some m →
      acc.1 = some m ∨ ∃ m0 ∈ l, m.row = m0.row ∧ m.col = m0.col := by
  intro l
  induction l with
  | nil =>
    intro acc m h
    exact Or.inl h
  | cons x xs ih =>
    intro acc m h
    rw [List.foldl_cons] at h
    rcases ih _ m h with hacc | ⟨m0, hm0, hco⟩
    · have hacc2 : ((if acc.2 <
          minimax (make_move b x.row x.col p).2 (sd - 1) ⊥ ⊤ false p then
          ((some (⟨x.row, x.col,
            minimax (make_move b x.row x.col p).2 (sd - 1) ⊥ ⊤ false p⟩ : Move)),
            minimax (make_move b x.row x.col p).2 (sd - 1) ⊥ ⊤ false p)
        else acc) : Option Move × Score).1 = some m := hacc
      by_cases hlt : acc.2 <
          minimax (make_move b x.row x.col p).2 (sd - 1) ⊥ ⊤ false p
      · rw [if_pos hlt] at hacc2
        have hmx := Option.some.inj hacc2
        exact Or.inr ⟨x, List.mem_cons_self x xs, by rw [← hmx], by rw [← hmx]⟩
      · rw [if_neg hlt] at hacc2
        exact Or.inl hacc2
    · exact Or.inr ⟨m0, List.mem_cons_of_mem x hm0, hco⟩

theorem gbmFold_some (b : Board) (p : Player) (sd : Nat) :
    ∀ (l : List Move) (acc : Option Move × Score),
      (acc.1 = none → acc.2 = ⊥) → (l ≠ [] ∨ acc.1 ≠ none) →
      (l.foldl (fun best m2 =>
        let score := minimax (make_move b m2.row m2.col p).2 (sd - 1) ⊥ ⊤ false p
        if best.2 < score then (some (⟨m2.row, m2.col, score⟩ : Move), score)
        else best) acc).1 ≠ none := by
  intro l
  induction l with
  | nil =>
    intro acc hinv h
    rcases h with h | h
    · exact absurd rfl h
    · exact h
  | cons x xs ih =>
    intro acc hinv h
    rw [List.foldl_cons]
    have hstep : ((if acc.2 <
        minimax (make_move b x.row x.col p).2 (sd - 1) ⊥ ⊤ false p then
        ((some (⟨x.row, x.col,
          minimax (make_move b x.row x.col p).2 (sd - 1) ⊥ ⊤ false p⟩ : Move)),
          minimax (make_move b x.row x.col p).2 (sd - 1) ⊥ ⊤ false p)
      else acc) : Option Move × Score).1 ≠ none := by
      by_cases hlt : acc.2 <
          minimax (make_move b x.row x.col p).2 (sd - 1) ⊥ ⊤ false p
      · rw [if_pos hlt]
        exact Option.some_ne_none _
      · rw [if_neg hlt]
        intro hc
        rw [hinv hc] at hlt
        exact hlt (Ne.bot_lt (minimax_ne_bot _ _ _ _ _ _))
    exact ih _ (fun hc => absurd hc hstep) (Or.inr hstep)

/-- The alpha-beta move loop of `get_best_move` returns a legal move whenever
it is handed a nonempty list of legal candidates. -/
theorem gbmLoop_valid {b : Board} {p : Player} {sd : Nat} {l : List Move}
    (hl : l ≠ []) (hsub : ∀ x ∈ l, x ∈ get_valid_moves b p) :
    ∃ m, gbmLoop b p sd l = some m ∧ is_valid_move b m.row m.col p = true := by
  have hsome := gbmFold_some b p sd l (none, ⊥) (fun _ => rfl) (Or.inl hl)
  rcases hval : gbmLoop b p sd l with - | m
  · exact absurd hval hsome
  · refine ⟨m, rfl, ?_⟩
    rcases gbmFold_coords b p sd l (none, ⊥) m hval with hnone | ⟨m0, hm0, hr, hc⟩
    · exact Option.noConfusion hnone
    · rw [hr, hc]
      exact valid_of_mem_moves (hsub m0 hm0)

/-- Whenever the side to move has a legal move, `get_best_move` returns a
legal move, through whichever of its branches fires. -/
theorem get_best_move_some {b : Board} {p : Player}
    (hm : get_valid_moves b p ≠ []) :
    ∃ m, get_best_move b p = some m ∧ is_valid_move b m.row m.col p = true := by
  simp only [get_best_move]
  rw [if_neg hm]
  by_cases he : emptyCount b ≤ 6
  · rw [if_pos he]
    exact endgame_solver_valid hm
  · rw [if_neg he]
    rcases hb : book_move b p (64 - emptyCount b) with - | mb
    · obtain ⟨m, hm1, hm2⟩ := gbmLoop_valid (sort_moves_ne_nil hm)
        (fun x hx => mem_sort_moves.mp hx)
      exact ⟨m, hm1, hm2⟩
    · exact ⟨mb, rfl, book_move_valid hb⟩

/-- C6: `get_best_move` returns `none` exactly when the side has no legal
move; when it has one, the returned move's coordinates are a legal move for
that side on that board. -/
theorem claim_C6_get_best_move (b : Board) (p : Player) :
    (get_best_move b p = none ↔ get_valid_moves b p = []) ∧
    ∀ m : Move, get_best_move b p = some m →
      is_valid_move b m.row m.col p = true := by
  by_cases hm : get_valid_moves b p = []
  · refine ⟨⟨fun _ => hm, fun _ => by rw [get_best_move, if_pos hm]⟩, ?_⟩
    intro m hsome
    rw [get_best_move, if_pos hm] at hsome
    cases hsome
  · obtain ⟨m, hsome, hvalid⟩ := get_best_move_some hm
    refine ⟨⟨fun hnone => ?_, fun hc => absurd hc hm⟩, fun m2 hm2 => ?_⟩
    · rw [hnone] at hsome
      cases hsome
    · rw [hsome] at hm2
      injection hm2 with hm2
      rw [← hm2]
      exact hvalid

/-- Witness for C6: the all-black board has no legal WHITE move and
`get_best_move` returns `none`; on the initial board BLACK is served the
book move (2, 3), which is legal. -/
theorem claim_C6_get_best_move_witness :
    get_best_move allBlackBoard Player.white = none ∧
    is_valid_move initialBoard (2 : Int) (3 : Int) Player.black = true :=
  ⟨(claim_C6_get_best_move allBlackBoard Player.white).1.mpr (by decide),
   (claim_C6_get_best_move initialBoard Player.black).2
     ⟨2, 3, qs 999⟩ (by decide)⟩


/-! ## Claim C8: the stability memo is pure performance -/

/-- A correctly prefilled memo: every stored entry equals the memo-free
stability count of its key.  The empty (cleared) memo satisfies this
vacuously. -/
def validCache (cache : StabCache) : Prop :=
  ∀ e ∈ cache, e.2 = calculate_stability e.1.1 e.1.2

/-- `abMaxLoop` with the memo threaded through the recursive calls, in the
order the source mutates `self.stability_cache`. -/
def abMaxLoopC (child : Board → Score → StabCache → Score × StabCache)
    (cur : Player) (b : Board) :
    List Move → Score → Score → Score → StabCache → Score × StabCache
  | [], maxEval, _, _, cache => (maxEval, cache)
  | m :: rest, maxEval, alpha, beta, cache =>
    let ev := child (make_move b m.row m.col cur).2 alpha cache
    let maxEval2 := max maxEval ev.1
    let alpha2 := max alpha ev.1
    if beta ≤ alpha2 then (maxEval2, ev.2)
    else abMaxLoopC child cur b rest maxEval2 alpha2 beta ev.2

/-- `abMinLoop` with the memo threaded through the recursive calls. -/
def abMinLoopC (child : Board → Score → StabCache → Score × StabCache)
    (cur : Player) (b : Board) :
    List Move → Score → Score → Score → StabCache → Score × StabCache
  | [], minEval, _, _, cache => (minEval, cache)
  | m :: rest, minEval, beta, alpha, cache =>
    let ev := child (make_move b m.row m.col cur).2 beta cache
    let minEval2 := min minEval ev.1
    let beta2 := min beta ev.1
    if beta2 ≤ alpha then (minEval2, ev.2)
    else abMinLoopC child cur b rest minEval2 beta2 alpha ev.2

/-- `SuperOthelloAI._minimax` with the stability memo threaded through
exactly where the source reads and mutates `self.stability_cache` (inside
`evaluate_position` at the leaves). -/
def minimaxCached : Board → Nat → Score → Score → Bool → Player → StabCache →
    Score × StabCache
  | b, 0, _, _, _, original_player, cache =>
    let e := evaluate_position_cached cache b original_player
    (qs e.1, e.2)
  | b, depth + 1, alpha, beta, is_maximizing, original_player, cache =>
    if is_game_over b then
      let e := evaluate_position_cached cache b original_player
      (qs e.1, e.2)
    else
      let current_player := if is_maximizing then original_player else original_player.opp
      let moves := get_valid_moves b current_player
      if moves = [] then
        minimaxCached b depth alpha beta (!is_maximizing) original_player cache
      else if is_maximizing then
        abMaxLoopC (fun b2 a c => minimaxCached b2 depth a beta false original_player c)
          current_player b moves ⊥ alpha beta cache
      else
        abMinLoopC (fun b2 bt c => minimaxCached b2 depth alpha bt true original_player c)
          current_player b moves ⊤ beta alpha cache
termination_by b depth _ _ _ _ _ => depth

/-- The move loop of `get_best_move` with the memo threaded through the
`_minimax` call made for every candidate. -/
def gbmLoopCAux (b : Board) (p : Player) (search_depth : Nat) :
    List Move → (Option Move × Score) → StabCache → (Option Move × Score) × StabCache
  | [], best, cache => (best, cache)
  | m :: rest, best, cache =>
    let sc := minimaxCached (make_move b m.row m.col p).2 (search_depth - 1)
      ⊥ ⊤ false p cache
    if best.2 < sc.1 then
      gbmLoopCAux b p search_depth rest (some (⟨m.row, m.col, sc.1⟩ : Move), sc.1) sc.2
    else gbmLoopCAux b p search_depth rest best sc.2

/-- `SuperOthelloAI.get_best_move` with the stability memo made explicit:
the returned move together with the memo state after the call. -/
def get_best_move_cached (b : Board) (p : Player) (cache : StabCache) :
    Option Move × StabCache :=
  let moves := get_valid_moves b p
  if moves = [] then (none, cache)
  else
    let game_phase := get_game_phase b
    let search_depth := depth_config game_phase
    let empty_count := emptyCount b
    if empty_count ≤ 6 then (endgame_solver b p, cache)
    else
      let search_depth2 := if empty_count ≤ 10 then min 8 (empty_count + 2) else search_depth
      let move_count := 64 - empty_count
      match book_move b p move_count with
      | some m => (some m, cache)
      | none =>
        let r := gbmLoopCAux b p search_depth2 (sort_moves b moves p)
          ((none : Option Move), (⊥ : Score)) cache
        (r.1.1, r.2)

theorem calculate_stability_cached_eq (b : Board) (p : Player) (cache : StabCache)
    (hv : validCache cache) :
    (calculate_stability_cached cache b p).1 = calculate_stability b p ∧
    validCache (calculate_stability_cached cache b p).2 := by
  rw [calculate_stability_cached]
  rcases hl : cacheLookup cache (b, p) with - | v
  · constructor
    · rfl
    · have hval : validCache (cache ++ [((b, p), calculate_stability b p)]) := by
        intro e he
        rcases List.mem_append.mp he with h | h
        · exact hv e h
        · rw [List.mem_singleton] at h
          rw [h]
      intro e he
      have he2 : e ∈ (if 1000 < (cache ++ [((b, p), calculate_stability b p)]).length
          then (cache ++ [((b, p), calculate_stability b p)]).drop 500
          else cache ++ [((b, p), calculate_stability b p)]) := he
      split at he2
      · exact hval e (List.mem_of_mem_drop he2)
      · exact hval e he2
  · constructor
    · show v = calculate_stability b p
      rw [cacheLookup] at hl
      obtain ⟨en, hfind, hv2⟩ := Option.map_eq_some'.mp hl
      have hmem := List.mem_of_find?_eq_some hfind
      have hp := List.find?_some hfind
      have hkey : en.1 = (b, p) := of_decide_eq_true hp
      rw [← hv2, hv en hmem, hkey]
    · exact hv

theorem evaluate_position_cached_eq (b : Board) (p : Player) (cache : StabCache)
    (hv : validCache cache) :
    (evaluate_position_cached cache b p).1 = evaluate_position b p ∧
    validCache (evaluate_position_cached cache b p).2 := by
  obtain ⟨e1, v1⟩ := calculate_stability_cached_eq b p cache hv
  obtain ⟨e2, v2⟩ := calculate_stability_cached_eq b p.opp
    (calculate_stability_cached cache b p).2 v1
  by_cases hgo : is_game_over b = true
  · simp only [evaluate_position_cached, evaluate_position, if_pos hgo]
    exact ⟨by simp, hv⟩
  · simp only [evaluate_position_cached, evaluate_position, if_neg hgo]
    exact ⟨by rw [e1, e2], v2⟩

theorem abMaxLoopC_eq (childC : Board → Score → StabCache → Score × StabCache)
    (child : Board → Score → Score) (cur : Player) (b : Board)
    (hc : ∀ b2 a cache, validCache cache →
      (childC b2 a cache).1 = child b2 a ∧ validCache (childC b2 a cache).2) :
    ∀ (l : List Move) (me alpha beta : Score) (cache : StabCache),
      validCache cache →
      (abMaxLoopC childC cur b l me alpha beta cache).1 =
        abMaxLoop child cur b l me alpha beta ∧
      validCache (abMaxLoopC childC cur b l me alpha beta cache).2 := by
  intro l
  induction l with
  | nil =>
    intro me alpha beta cache hv
    exact ⟨rfl, hv⟩
  | cons m rest ih =>
    intro me alpha beta cache hv
    obtain ⟨he, hv2⟩ := hc (make_move b m.row m.col cur).2 alpha cache hv
    simp only [abMaxLoopC, abMaxLoop]
    rw [he]
    by_cases hcond : beta ≤ max alpha (child (make_move b m.row m.col cur).2 alpha)
    · simp only [if_pos hcond]
      exact ⟨by simp, hv2⟩
    · simp only [if_neg hcond]
      exact ih _ _ _ _ hv2

theorem abMinLoopC_eq (childC : Board → Score → StabCache → Score × StabCache)
    (child : Board → Score → Score) (cur : Player) (b : Board)
    (hc : ∀ b2 a cache, validCache cache →
      (childC b2 a cache).1 = child b2 a ∧ validCache (childC b2 a cache).2) :
    ∀ (l : List Move) (me beta alpha : Score) (cache : StabCache),
      validCache cache →
      (abMinLoopC childC cur b l me beta alpha cache).1 =
        abMinLoop child cur b l me beta alpha ∧
      validCache (abMinLoopC childC cur b l me beta alpha cache).2 := by
  intro l
  induction l with
  | nil =>
    intro me beta alpha cache hv
    exact ⟨rfl, hv⟩
  | cons m rest ih =>
    intro me beta alpha cache hv
    obtain ⟨he, hv2⟩ := hc (make_move b m.row m.col cur).2 beta cache hv
    simp only [abMinLoopC, abMinLoop]
    rw [he]
    by_cases hcond : min beta (child (make_move b m.row m.col cur).2 beta) ≤ alpha
    · simp only [if_pos hcond]
      exact ⟨by simp, hv2⟩
    · simp only [if_neg hcond]
      exact ih _ _ _ _ hv2

theorem minimaxCached_eq :
    ∀ (depth : Nat) (b : Board) (alpha beta : Score) (mx : Bool) (orig : Player)
      (cache : StabCache), validCache cache →
      (minimaxCached b depth alpha beta mx orig cache).1 =
        minimax b depth alpha beta mx orig ∧
      validCache (minimaxCached b depth alpha beta mx orig cache).2 := by
  intro depth
  induction depth with
  | zero =>
    intro b alpha beta mx orig cache hv
    obtain ⟨he, hv2⟩ := evaluate_position_cached_eq b orig cache hv
    simp only [minimaxCached, minimax]
    exact ⟨congrArg qs he, hv2⟩
  | succ depth ih =>
    intro b alpha beta mx orig cache hv
    simp only [minimaxCached, minimax]
    by_cases hgo : is_game_over b = true
    · obtain ⟨he, hv2⟩ := evaluate_position_cached_eq b orig cache hv
      simp only [if_pos hgo]
      exact ⟨congrArg qs he, hv2⟩
    · simp only [if_neg hgo]
      by_cases hm : get_valid_moves b (if mx = true then orig else orig.opp) = []
      · simp only [if_pos hm]
        exact ih b alpha beta (!mx) orig cache hv
      · simp only [if_neg hm]
        by_cases hmx : mx = true
        · simp only [if_pos hmx]
          exact abMaxLoopC_eq _ _ _ _
            (fun b2 a c hvc => ih b2 a beta false orig c hvc) _ _ _ _ _ hv
        · simp only [if_neg hmx]
          exact abMinLoopC_eq _ _ _ _
            (fun b2 bt c hvc => ih b2 alpha bt true orig c hvc) _ _ _ _ _ hv

theorem gbmLoopCAux_eq (b : Board) (p : Player) (sd : Nat) :
    ∀ (l : List Move) (best : Option Move × Score) (cache : StabCache),
      validCache cache →
      (gbmLoopCAux b p sd l best cache).1 =
        l.foldl (fun best2 m =>
          let score := minimax (make_move b m.row m.col p).2 (sd - 1) ⊥ ⊤ false p
          if best2.2 < score then (some (⟨m.row, m.col, score⟩ : Move), score)
          else best2) best ∧
      validCache (gbmLoopCAux b p sd l best cache).2 := by
  intro l
  induction l with
  | nil =>
    intro best cache hv
    exact ⟨rfl, hv⟩
  | cons x xs ih =>
    intro best cache hv
    obtain ⟨he, hv2⟩ := minimaxCached_eq (sd - 1) (make_move b x.row x.col p).2
      ⊥ ⊤ false p cache hv
    simp only [gbmLoopCAux, List.foldl_cons]
    rw [he]
    by_cases hlt : best.2 < minimax (make_move b x.row x.col p).2 (sd - 1) ⊥ ⊤ false p
    · simp only [if_pos hlt]
      exact ih _ _ hv2
    · simp only [if_neg hlt]
      exact ih _ _ hv2

theorem get_best_move_cached_eq (b : Board) (p : Player) (cache : StabCache)
    (hv : validCache cache) :
    (get_best_move_cached b p cache).1 = get_best_move b p ∧
    validCache (get_best_move_cached b p cache).2 := by
  simp only [get_best_move_cached, get_best_move]
  by_cases hm : get_valid_moves b p = []
  · simp only [if_pos hm]
    exact ⟨by simp, hv⟩
  · simp only [if_neg hm]
    by_cases he : emptyCount b ≤ 6
    · simp only [if_pos he]
      exact ⟨by simp, hv⟩
    · simp only [if_neg he]
      rcases hb : book_move b p (64 - emptyCount b) with - | mb
      · obtain ⟨h1, h2⟩ := gbmLoopCAux_eq b p
          (if emptyCount b ≤ 10 then min 8 (emptyCount b + 2)
            else depth_config (get_game_phase b))
          (sort_moves b (get_valid_moves b p) p) (none, ⊥) cache hv
        exact ⟨congrArg Prod.fst h1, h2⟩
      · exact ⟨rfl, hv⟩

/-- C8: `get_best_move` is deterministic and independent of the stability
memo: starting from any two correctly prefilled memos (the cleared memo
included) it returns the same move, and that move is the one the memo-free
computation returns — clearing the memo never changes the result. -/
theorem claim_C8_cache_independence (b : Board) (p : Player) (c1 c2 : StabCache)
    (h1 : validCache c1) (h2 : validCache c2) :
    (get_best_move_cached b p c1).1 = (get_best_move_cached b p c2).1 ∧
    (get_best_move_cached b p []).1 = get_best_move b p := by
  have e1 := get_best_move_cached_eq b p c1 h1
  have e2 := get_best_move_cached_eq b p c2 h2
  have e3 := get_best_move_cached_eq b p []
    (fun e he => absurd he (List.not_mem_nil e))
  exact ⟨e1.1.trans e2.1.symm, e3.1⟩

/-- Witness for C8: on the initial board, a memo prefilled with BLACK's
correctly computed stability entry and the cleared memo give the same
(book) move, which is also the memo-free result. -/
theorem claim_C8_cache_independence_witness :
    (get_best_move_cached initialBoard Player.black
        [((initialBoard, Player.black),
          calculate_stability initialBoard Player.black)]).1 =
      (get_best_move_cached initialBoard Player.black []).1 ∧
    (get_best_move_cached initialBoard Player.black []).1 =
      get_best_move initialBoard Player.black := by
  have h := claim_C8_cache_independence initialBoard Player.black
    [((initialBoard, Player.black), calculate_stability initialBoard Player.black)] []
    (by
      intro e he
      rw [List.mem_singleton] at he
      rw [he])
    (fun e he => absurd he (List.not_mem_nil e))
  exact ⟨h.1, h.2⟩


/-! ## Claim C4: alpha-beta with the full window equals un-pruned minimax -/

theorem qs_ne_top (q : ℚ) : qs q ≠ ⊤ := by
  intro h
  rw [qs, ← WithBot.coe_top] at h
  exact WithTop.coe_ne_top (WithBot.coe_inj.mp h)

theorem abMaxLoop_ne_top (child : Board → Score → Score) (cur : Player) (b : Board)
    (hchild : ∀ b2 a, child b2 a ≠ ⊤) :
    ∀ (l : List Move) (me alpha beta : Score), me ≠ ⊤ →
      abMaxLoop child cur b l me alpha beta ≠ ⊤ := by
  intro l
  induction l with
  | nil =>
    intro me alpha beta h
    simp only [abMaxLoop]
    exact h
  | cons m rest ih =>
    intro me alpha beta h
    simp only [abMaxLoop]
    have hev := hchild (make_move b m.row m.col cur).2 alpha
    have hmax : max me (child (make_move b m.row m.col cur).2 alpha) ≠ ⊤ := by
      intro hc
      rcases max_choice me (child (make_move b m.row m.col cur).2 alpha) with hc2 | hc2
      · rw [hc2] at hc
        exact h hc
      · rw [hc2] at hc
        exact hev hc
    split
    · exact hmax
    · exact ih _ _ _ hmax

theorem abMinLoop_ne_top (child : Board → Score → Score) (cur : Player) (b : Board)
    (hchild : ∀ b2 a, child b2 a ≠ ⊤) :
    ∀ (l : List Move) (me beta alpha : Score), (me ≠ ⊤ ∨ l ≠ []) →
      abMinLoop child cur b l me beta alpha ≠ ⊤ := by
  intro l
  induction l with
  | nil =>
    intro me beta alpha h
    simp only [abMinLoop]
    exact h.resolve_right (fun hc => hc rfl)
  | cons m rest ih =>
    intro me beta alpha h
    simp only [abMinLoop]
    have hev := hchild (make_move b m.row m.col cur).2 beta
    have hmin : min me (child (make_move b m.row m.col cur).2 beta) ≠ ⊤ := by
      intro hc
      exact hev (top_le_iff.mp (hc ▸ min_le_right me _))
    split
    · exact hmin
    · exact ih _ _ _ (Or.inl hmin)

/-- The alpha-beta search never produces the `+inf` sentinel either. -/
theorem minimax_ne_top :
    ∀ (depth : Nat) (b : Board) (alpha beta : Score) (mx : Bool) (orig : Player),
      minimax b depth alpha beta mx orig ≠ ⊤ := by
  intro depth
  induction depth with
  | zero =>
    intro b alpha beta mx orig
    rw [minimax]
    exact qs_ne_top _
  | succ depth ih =>
    intro b alpha beta mx orig
    rw [minimax]
    split
    · exact qs_ne_top _
    · by_cases hm : get_valid_moves b (if mx = true then orig else orig.opp) = []
      · rw [if_pos hm]
        exact ih b alpha beta (!mx) orig
      · rw [if_neg hm]
        split
        · exact abMaxLoop_ne_top _ _ _ (fun b2 a => ih b2 a beta false orig) _ _ _ _
            bot_ne_top
        · rename_i hmx
          rw [if_neg hmx] at hm
          exact abMinLoop_ne_top _ _ _ (fun b2 a => ih b2 alpha a true orig) _ _ _ _
            (Or.inr hm)

theorem abMaxLoop_ge_me (child : Board → Score → Score) (cur : Player) (b : Board) :
    ∀ (l : List Move) (me alpha beta : Score),
      me ≤ abMaxLoop child cur b l me alpha beta := by
  intro l
  induction l with
  | nil =>
    intro me alpha beta
    simp only [abMaxLoop]
    exact le_refl me
  | cons m rest ih =>
    intro me alpha beta
    simp only [abMaxLoop]
    split
    · exact le_max_left _ _
    · exact le_trans (le_max_left me _) (ih _ _ _)

theorem abMinLoop_le_me (child : Board → Score → Score) (cur : Player) (b : Board) :
    ∀ (l : List Move) (me beta alpha : Score),
      abMinLoop child cur b l me beta alpha ≤ me := by
  intro l
  induction l with
  | nil =>
    intro me beta alpha
    simp only [abMinLoop]
    exact le_refl me
  | cons m rest ih =>
    intro me beta alpha
    simp only [abMinLoop]
    split
    · exact min_le_left _ _
    · exact le_trans (ih _ _ _) (min_le_left me _)

theorem foldMax_acc_le (f : Move → Score) :
    ∀ (l : List Move) (acc : Score), acc ≤ l.foldl (fun a m => max a (f m)) acc := by
  intro l
  induction l with
  | nil =>
    intro acc
    exact le_refl acc
  | cons m rest ih =>
    intro acc
    simp only [List.foldl_cons]
    exact le_trans (le_max_left acc (f m)) (ih _)

theorem foldMin_le_acc (f : Move → Score) :
    ∀ (l : List Move) (acc : Score), l.foldl (fun a m => min a (f m)) acc ≤ acc := by
  intro l
  induction l with
  | nil =>
    intro acc
    exact le_refl acc
  | cons m rest ih =>
    intro acc
    simp only [List.foldl_cons]
    exact le_trans (ih _) (min_le_left acc (f m))

theorem foldMax_decomp (f : Move → Score) :
    ∀ (l : List Move) (acc : Score),
      l.foldl (fun a m => max a (f m)) acc =
        max acc (l.foldl (fun a m => max a (f m)) ⊥) := by
  intro l
  induction l with
  | nil =>
    intro acc
    simp only [List.foldl_nil]
    exact (max_eq_left bot_le).symm
  | cons m rest ih =>
    intro acc
    simp only [List.foldl_cons]
    rw [ih (max acc (f m)), ih (max ⊥ (f m)), max_eq_right bot_le, max_assoc]

theorem foldMin_decomp (f : Move → Score) :
    ∀ (l : List Move) (acc : Score),
      l.foldl (fun a m => min a (f m)) acc =
        min acc (l.foldl (fun a m => min a (f m)) ⊤) := by
  intro l
  induction l with
  | nil =>
    intro acc
    simp only [List.foldl_nil]
    exact (min_eq_left le_top).symm
  | cons m rest ih =>
    intro acc
    simp only [List.foldl_cons]
    rw [ih (min acc (f m)), ih (min ⊤ (f m)), min_eq_right le_top, min_assoc]

theorem foldMax_mono (f : Move → Score) (l : List Move) (a1 a2 : Score)
    (h : a1 ≤ a2) :
    l.foldl (fun a m => max a (f m)) a1 ≤ l.foldl (fun a m => max a (f m)) a2 := by
  rw [foldMax_decomp f l a1, foldMax_decomp f l a2]
  exact max_le_max h (le_refl _)

theorem foldMin_mono (f : Move → Score) (l : List Move) (a1 a2 : Score)
    (h : a1 ≤ a2) :
    l.foldl (fun a m => min a (f m)) a1 ≤ l.foldl (fun a m => min a (f m)) a2 := by
  rw [foldMin_decomp f l a1, foldMin_decomp f l a2]
  exact min_le_min h (le_refl _)

/-- Fail-soft invariant of the maximizing alpha-beta move loop: provided the
children are fail-soft for the window `(·, beta)`, the loop's result is a
sound upper bound when it fails low, a sound lower bound when it fails high,
and the exact folded maximum when it lands inside the window. -/
theorem abMaxLoop_fs (child : Board → Score → Score) (sp : Move → Score)
    (cur : Player) (b : Board) (beta : Score)
    (hcA : ∀ (m : Move) (a2 : Score), a2 < beta →
      child (make_move b m.row m.col cur).2 a2 ≤ a2 →
      sp m ≤ child (make_move b m.row m.col cur).2 a2)
    (hcB : ∀ (m : Move) (a2 : Score), a2 < beta →
      beta ≤ child (make_move b m.row m.col cur).2 a2 →
      child (make_move b m.row m.col cur).2 a2 ≤ sp m)
    (hcC : ∀ (m : Move) (a2 : Score), a2 < beta →
      a2 < child (make_move b m.row m.col cur).2 a2 →
      child (make_move b m.row m.col cur).2 a2 < beta →
      child (make_move b m.row m.col cur).2 a2 = sp m) :
    ∀ (l : List Move) (me a : Score), me ≤ a → a < beta →
      (abMaxLoop child cur b l me a beta ≤ a →
        l.foldl (fun acc m => max acc (sp m)) me ≤
          abMaxLoop child cur b l me a beta) ∧
      (beta ≤ abMaxLoop child cur b l me a beta →
        abMaxLoop child cur b l me a beta ≤
          l.foldl (fun acc m => max acc (sp m)) me) ∧
      (a < abMaxLoop child cur b l me a beta →
        abMaxLoop child cur b l me a beta < beta →
        abMaxLoop child cur b l me a beta =
          l.foldl (fun acc m => max acc (sp m)) me) := by
  intro l
  induction l with
  | nil =>
    intro me a hme ha
    simp only [abMaxLoop, List.foldl_nil]
    exact ⟨fun _ => le_refl me, fun _ => le_refl me, fun _ _ => trivial⟩
  | cons m rest ih =>
    intro me a hme ha
    simp only [abMaxLoop, List.foldl_cons]
    by_cases hcut : beta ≤ max a (child (make_move b m.row m.col cur).2 a)
    · simp only [if_pos hcut]
      have hbe : beta ≤ child (make_move b m.row m.col cur).2 a := by
        rcases le_max_iff.mp hcut with h | h
        · exact absurd (lt_of_lt_of_le ha h) (lt_irrefl a)
        · exact h
      have hevsp := hcB m a ha hbe
      refine ⟨?_, ?_, ?_⟩
      · intro hr
        have hev_le : child (make_move b m.row m.col cur).2 a ≤ a :=
          le_trans (le_max_right me _) hr
        exact absurd (lt_of_lt_of_le ha (le_trans hbe hev_le)) (lt_irrefl a)
      · intro _
        exact le_trans (max_le_max (le_refl me) hevsp)
          (foldMax_acc_le sp rest (max me (sp m)))
      · intro _ h2
        have hcon : beta ≤ max me (child (make_move b m.row m.col cur).2 a) :=
          le_trans hbe (le_max_right me _)
        exact absurd (lt_of_le_of_lt hcon h2) (lt_irrefl beta)
    · simp only [if_neg hcut]
      have hcut2 : max a (child (make_move b m.row m.col cur).2 a) < beta :=
        not_le.mp hcut
      have hEb : child (make_move b m.row m.col cur).2 a < beta :=
        lt_of_le_of_lt (le_max_right a _) hcut2
      by_cases hEa : child (make_move b m.row m.col cur).2 a ≤ a
      · rw [max_eq_left hEa]
        have hsp := hcA m a ha hEa
        obtain ⟨ih1, ih2, ih3⟩ := ih (max me (child (make_move b m.row m.col cur).2 a))
          a (max_le hme hEa) ha
        refine ⟨?_, ?_, ?_⟩
        · intro hr
          exact le_trans (foldMax_mono sp rest _ _ (max_le_max (le_refl me) hsp))
            (ih1 hr)
        · intro hr
          have h1 := ih2 hr
          rw [foldMax_decomp] at h1
          rcases le_max_iff.mp h1 with h2 | h2
          · exact absurd (lt_of_le_of_lt (le_trans hr h2)
              (lt_of_le_of_lt (max_le hme hEa) ha)) (lt_irrefl beta)
          · rw [foldMax_decomp]
            exact le_trans h2 (le_max_right _ _)
        · intro h1 h2
          have hr_eq := ih3 h1 h2
          rw [foldMax_decomp] at hr_eq
          have hrM : abMaxLoop child cur b rest
              (max me (child (make_move b m.row m.col cur).2 a)) a beta =
              rest.foldl (fun acc m2 => max acc (sp m2)) ⊥ := by
            rcases max_choice (max me (child (make_move b m.row m.col cur).2 a))
              (rest.foldl (fun acc m2 => max acc (sp m2)) ⊥) with hc | hc
            · rw [hc] at hr_eq
              exact absurd (lt_of_lt_of_le (hr_eq ▸ h1) (max_le hme hEa))
                (lt_irrefl a)
            · rw [hc] at hr_eq
              exact hr_eq
          rw [foldMax_decomp]
          rw [max_eq_right (le_trans (max_le hme (le_trans hsp hEa))
            (le_of_lt (hrM ▸ h1)))]
          exact hrM
      · have haE := not_le.mp hEa
        rw [max_eq_right (le_of_lt haE)]
        have hsp := hcC m a ha haE hEb
        obtain ⟨ih1, ih2, ih3⟩ := ih (max me (child (make_move b m.row m.col cur).2 a))
          (child (make_move b m.row m.col cur).2 a)
          (max_le (le_trans hme (le_of_lt haE)) (le_refl _)) hEb
        rw [← hsp]
        have hgrow := abMaxLoop_ge_me child cur b rest
          (max me (child (make_move b m.row m.col cur).2 a))
          (child (make_move b m.row m.col cur).2 a) beta
        refine ⟨?_, ?_, ?_⟩
        · intro hr
          exact absurd (lt_of_lt_of_le haE
            (le_trans (le_trans (le_max_right me _) hgrow) hr)) (lt_irrefl a)
        · intro hr
          exact ih2 hr
        · intro _ h2
          have hEr : child (make_move b m.row m.col cur).2 a ≤
              abMaxLoop child cur b rest
                (max me (child (make_move b m.row m.col cur).2 a))
                (child (make_move b m.row m.col cur).2 a) beta :=
            le_trans (le_max_right me _) hgrow
          rcases eq_or_lt_of_le hEr with heq | hlt
          · have hS_le := ih1 (le_of_eq heq.symm)
            have hr_le := le_trans (le_trans (le_of_eq heq.symm) (le_max_right me _))
              (foldMax_acc_le sp rest
                (max me (child (make_move b m.row m.col cur).2 a)))
            exact le_antisymm hr_le hS_le
          · exact ih3 hlt h2

/-- Fail-soft invariant of the minimizing alpha-beta move loop, the mirror
image of `abMaxLoop_fs`. -/
theorem abMinLoop_fs (child : Board → Score → Score) (sp : Move → Score)
    (cur : Player) (b : Board) (a : Score)
    (hcA : ∀ (m : Move) (b2 : Score), a < b2 →
      child (make_move b m.row m.col cur).2 b2 ≤ a →
      sp m ≤ child (make_move b m.row m.col cur).2 b2)
    (hcB : ∀ (m : Move) (b2 : Score), a < b2 →
      b2 ≤ child (make_move b m.row m.col cur).2 b2 →
      child (make_move b m.row m.col cur).2 b2 ≤ sp m)
    (hcC : ∀ (m : Move) (b2 : Score), a < b2 →
      a < child (make_move b m.row m.col cur).2 b2 →
      child (make_move b m.row m.col cur).2 b2 < b2 →
      child (make_move b m.row m.col cur).2 b2 = sp m) :
    ∀ (l : List Move) (me bt : Score), bt ≤ me → a < bt →
      (abMinLoop child cur b l me bt a ≤ a →
        l.foldl (fun acc m => min acc (sp m)) me ≤
          abMinLoop child cur b l me bt a) ∧
      (bt ≤ abMinLoop child cur b l me bt a →
        abMinLoop child cur b l me bt a ≤
          l.foldl (fun acc m => min acc (sp m)) me) ∧
      (a < abMinLoop child cur b l me bt a →
        abMinLoop child cur b l me bt a < bt →
        abMinLoop child cur b l me bt a =
          l.foldl (fun acc m => min acc (sp m)) me) := by
  intro l
  induction l with
  | nil =>
    intro me bt hbtme ha
    simp only [abMinLoop, List.foldl_nil]
    exact ⟨fun _ => le_refl me, fun _ => le_refl me, fun _ _ => trivial⟩
  | cons m rest ih =>
    intro me bt hbtme ha
    simp only [abMinLoop, List.foldl_cons]
    by_cases hcut : min bt (child (make_move b m.row m.col cur).2 bt) ≤ a
    · simp only [if_pos hcut]
      have hev_a : child (make_move b m.row m.col cur).2 bt ≤ a := by
        rcases min_le_iff.mp hcut with h | h
        · exact absurd (lt_of_lt_of_le ha h) (lt_irrefl a)
        · exact h
      have hevsp := hcA m bt ha hev_a
      refine ⟨?_, ?_, ?_⟩
      · intro _
        exact le_trans (foldMin_le_acc sp rest (min me (sp m)))
          (min_le_min (le_refl me) hevsp)
      · intro hr
        have hcon : min me (child (make_move b m.row m.col cur).2 bt) ≤ a :=
          le_trans (min_le_right me _) hev_a
        exact absurd (lt_of_lt_of_le ha (le_trans hr hcon)) (lt_irrefl a)
      · intro h1 _
        have hcon : min me (child (make_move b m.row m.col cur).2 bt) ≤ a :=
          le_trans (min_le_right me _) hev_a
        exact absurd (lt_of_lt_of_le h1 hcon) (lt_irrefl a)
    · simp only [if_neg hcut]
      have hacut : a < min bt (child (make_move b m.row m.col cur).2 bt) :=
        not_le.mp hcut
      have haev : a < child (make_move b m.row m.col cur).2 bt :=
        lt_of_lt_of_le hacut (min_le_right bt _)
      by_cases hbtev : bt ≤ child (make_move b m.row m.col cur).2 bt
      · rw [min_eq_left hbtev]
        have hsp := hcB m bt ha hbtev
        obtain ⟨ih1, ih2, ih3⟩ := ih
          (min me (child (make_move b m.row m.col cur).2 bt)) bt
          (le_min hbtme hbtev) ha
        refine ⟨?_, ?_, ?_⟩
        · intro hr
          have h1 := ih1 hr
          rw [foldMin_decomp] at h1
          rcases min_le_iff.mp h1 with h2 | h2
          · exact absurd (lt_of_le_of_lt (le_trans (le_min hbtme hbtev) h2)
              (lt_of_le_of_lt hr ha)) (lt_irrefl bt)
          · rw [foldMin_decomp]
            exact le_trans (min_le_right _ _) h2
        · intro hr
          exact le_trans (ih2 hr)
            (foldMin_mono sp rest _ _ (min_le_min (le_refl me) hsp))
        · intro h1 h2
          have hr_eq := ih3 h1 h2
          rw [foldMin_decomp] at hr_eq
          have hrM : abMinLoop child cur b rest
              (min me (child (make_move b m.row m.col cur).2 bt)) bt a =
              rest.foldl (fun acc m2 => min acc (sp m2)) ⊤ := by
            rcases min_choice (min me (child (make_move b m.row m.col cur).2 bt))
              (rest.foldl (fun acc m2 => min acc (sp m2)) ⊤) with hc | hc
            · rw [hc] at hr_eq
              exact absurd (lt_of_le_of_lt (le_min hbtme hbtev) (hr_eq ▸ h2))
                (lt_irrefl bt)
            · rw [hc] at hr_eq
              exact hr_eq
          rw [foldMin_decomp]
          rw [min_eq_right (le_trans (le_of_lt (hrM ▸ h2))
            (le_min hbtme (le_trans hbtev hsp)))]
          exact hrM
      · have hevbt := not_le.mp hbtev
        rw [min_eq_right (le_of_lt hevbt)]
        have hsp := hcC m bt ha haev hevbt
        obtain ⟨ih1, ih2, ih3⟩ := ih
          (min me (child (make_move b m.row m.col cur).2 bt))
          (child (make_move b m.row m.col cur).2 bt)
          (le_min (le_of_lt (lt_of_lt_of_le hevbt hbtme)) (le_refl _)) haev
        rw [← hsp]
        have hshr := abMinLoop_le_me child cur b rest
          (min me (child (make_move b m.row m.col cur).2 bt))
          (child (make_move b m.row m.col cur).2 bt) a
        refine ⟨?_, ?_, ?_⟩
        · intro hr
          exact ih1 hr
        · intro hr
          exact absurd (lt_of_le_of_lt
            (le_trans hr (le_trans hshr (min_le_right me _))) hevbt)
            (lt_irrefl bt)
        · intro h1 _
          have hrE : abMinLoop child cur b rest
              (min me (child (make_move b m.row m.col cur).2 bt))
              (child (make_move b m.row m.col cur).2 bt) a ≤
              child (make_move b m.row m.col cur).2 bt :=
            le_trans hshr (min_le_right me _)
          rcases eq_or_lt_of_le hrE with heq | hlt
          · have hr_le := ih2 (le_of_eq heq.symm)
            have hS_le := le_trans (le_trans (foldMin_le_acc sp rest
              (min me (child (make_move b m.row m.col cur).2 bt)))
              (min_le_right me _)) (le_of_eq heq.symm)
            exact le_antisymm hr_le hS_le
          · exact ih3 h1 hlt

/-- The fail-soft property of `_minimax`: relative to its spec value, the
result is an upper bound when it fails low, a lower bound when it fails
high, and exact inside the window. -/
theorem minimax_fs :
    ∀ (depth : Nat) (b : Board) (alpha beta : Score) (mx : Bool) (orig : Player),
      alpha < beta →
      (minimax b depth alpha beta mx orig ≤ alpha →
        minimaxSpec b depth mx orig ≤ minimax b depth alpha beta mx orig) ∧
      (beta ≤ minimax b depth alpha beta mx orig →
        minimax b depth alpha beta mx orig ≤ minimaxSpec b depth mx orig) ∧
      (alpha < minimax b depth alpha beta mx orig →
        minimax b depth alpha beta mx orig < beta →
        minimax b depth alpha beta mx orig = minimaxSpec b depth mx orig) := by
  intro depth
  induction depth with
  | zero =>
    intro b alpha beta mx orig _
    simp only [minimax, minimaxSpec]
    exact ⟨fun _ => le_refl _, fun _ => le_refl _, fun _ _ => trivial⟩
  | succ depth ih =>
    intro b alpha beta mx orig hab
    simp only [minimax, minimaxSpec]
    by_cases hgo : is_game_over b = true
    · simp only [if_pos hgo]
      exact ⟨fun _ => le_refl _, fun _ => le_refl _, fun _ _ => trivial⟩
    · simp only [if_neg hgo]
      by_cases hm : get_valid_moves b (if mx = true then orig else orig.opp) = []
      · simp only [if_pos hm]
        exact ih b alpha beta (!mx) orig hab
      · simp only [if_neg hm]
        by_cases hmx : mx = true
        · simp only [if_pos hmx]
          exact abMaxLoop_fs (fun b2 a => minimax b2 depth a beta false orig)
            (fun m2 => minimaxSpec (make_move b m2.row m2.col orig).2 depth false orig)
            orig b beta
            (fun m2 a2 h2 hle =>
              ((ih (make_move b m2.row m2.col orig).2 a2 beta false orig h2).1) hle)
            (fun m2 a2 h2 hge =>
              ((ih (make_move b m2.row m2.col orig).2 a2 beta false orig h2).2.1) hge)
            (fun m2 a2 h2 hl hh =>
              ((ih (make_move b m2.row m2.col orig).2 a2 beta false orig h2).2.2) hl hh)
            (get_valid_moves b orig) ⊥ alpha bot_le hab
        · simp only [if_neg hmx]
          exact abMinLoop_fs (fun b2 bt => minimax b2 depth alpha bt true orig)
            (fun m2 => minimaxSpec (make_move b m2.row m2.col orig.opp).2 depth true orig)
            orig.opp b alpha
            (fun m2 b2 h2 hle =>
              ((ih (make_move b m2.row m2.col orig.opp).2 alpha b2 true orig h2).1) hle)
            (fun m2 b2 h2 hge =>
              ((ih (make_move b m2.row m2.col orig.opp).2 alpha b2 true orig h2).2.1) hge)
            (fun m2 b2 h2 hl hh =>
              ((ih (make_move b m2.row m2.col orig.opp).2 alpha b2 true orig h2).2.2) hl hh)
            (get_valid_moves b orig.opp) ⊤ beta le_top hab

/-- C4: for every board, depth, maximizing flag and original player,
`_minimax` invoked with the full window `(-inf, +inf)` returns exactly the
value of the un-pruned depth-limited minimax recurrence (`minimaxSpec`):
depth 0 or a terminal board yields the evaluator score for the original
mover, and a moveless ply still decrements the depth and flips the flag. -/
theorem claim_C4_minimax_full_window (b : Board) (depth : Nat) (mx : Bool)
    (orig : Player) :
    minimax b depth ⊥ ⊤ mx orig = minimaxSpec b depth mx orig := by
  obtain ⟨-, -, h3⟩ := minimax_fs depth b ⊥ ⊤ mx orig bot_lt_top
  exact h3 (Ne.bot_lt (minimax_ne_bot depth b ⊥ ⊤ mx orig))
    (Ne.lt_top (minimax_ne_top depth b ⊥ ⊤ mx orig))

end Othello
